import Mathlib

/-!
Verification of the batch ETL pipeline (source: src/processing/data_cleaning.py,
src/processing/etl_process.py, src/utils/retry.py, src/utils/clickhouse_utils.py).

Shallow embedding conventions:
* A pandas DataFrame is a `Batch`: a column-name list plus a list of rows, each
  row a list of scalar `Value`s aligned positionally with the columns.
* Scalars: `Value.null` models SQL NULL / Python None / NaN (anything dropped
  by `dropna`); `Value.natt` models pandas NaT (produced by
  `pd.to_datetime(..., errors=coerce)`, dropped by `dropna`, and not
  JSON-serializable); `Value.str`, `Value.num` (rationals standing for Python
  ints/floats), and `Value.date` (timestamps, abstracted to an integer tick;
  the strftime rendering is modelled by an injective rendering function since
  no claim depends on the exact calendar text).
* A column's pandas dtype is modelled from its contents: a column containing at
  least one string is object-dtyped (eligible for `pd.to_numeric`); a nonempty
  column all of whose entries are timestamps/NaT is datetime-dtyped (eligible
  for `.dt.strftime`).
* Fallible pandas operations are `Except String`: `pd.to_numeric` on an object
  column containing a timestamp raises TypeError (uncaught by the ValueError
  handler in convert_data_types), mixed-type groupby sums raise, comparing a
  string or timestamp against a number in `between` raises, and `json.dumps`
  raises TypeError on Timestamp/NaT values.
* `json.dumps` on a row dict is modelled over the printable character subset:
  double quotes and backslashes are escaped inside JSON strings; floats are
  rendered as exact decimals (every binary float is an exact decimal; rationals
  whose denominator is not 10-smooth do not arise from floats and make the
  model serializer fail).
-/

namespace ETL

attribute [local semireducible] Rat.add Rat.mul Rat.sub Rat.inv Rat.ofScientific

/-- Named characters, to keep quote/backslash handling explicit. -/
def qQuote : Char := Char.ofNat 39

def dQuote : Char := Char.ofNat 34

def bSlash : Char := Char.ofNat 92

def lBrace : Char := Char.ofNat 123

def rBrace : Char := Char.ofNat 125

/-- Scalar values held by a DataFrame cell. -/
inductive Value where
  | null
  | natt
  | str (s : String)
  | num (q : ℚ)
  | date (t : ℤ)
deriving DecidableEq, Repr

/-- A DataFrame: column names plus rows of values, positionally aligned. -/
structure Batch where
  cols : List String
  rows : List (List Value)
deriving DecidableEq, Repr

/-- Rectangularity: every row has exactly one entry per column. -/
def Batch.WF (df : Batch) : Prop := ∀ r ∈ df.rows, r.length = df.cols.length

instance (df : Batch) : Decidable df.WF := by unfold Batch.WF; infer_instance

instance {ε α : Type} [DecidableEq ε] [DecidableEq α] : DecidableEq (Except ε α) := fun x y =>
  match x, y with
  | .ok a, .ok b =>
    if h : a = b then .isTrue (by rw [h]) else .isFalse (by simp [h])
  | .error e, .error f =>
    if h : e = f then .isTrue (by rw [h]) else .isFalse (by simp [h])
  | .ok _, .error _ => .isFalse (by simp)
  | .error _, .ok _ => .isFalse (by simp)

/-- Values dropped by dropna: None/NaN (null) and NaT. -/
def Value.isNull : Value → Bool
  | .null => true
  | .natt => true
  | _ => false

def Value.isStr : Value → Bool
  | .str _ => true
  | _ => false

/-- Timestamp-or-NaT, the contents of a datetime64 column. -/
def Value.isDateLike : Value → Bool
  | .date _ => true
  | .natt => true
  | _ => false

/-- First index of a column name in the header (pandas label lookup). -/
def firstIdx (cols : List String) (c : String) : Option Nat :=
  match cols with
  | [] => none
  | c0 :: rest => if c0 = c then some 0 else (firstIdx rest c).map (· + 1)

/-- Value of row r at column c (null when the label is absent or the row is
short; with rectangular data and a present label this is the cell value). -/
def rowVal (cols : List String) (r : List Value) (c : String) : Value :=
  match firstIdx cols c with
  | some i => r.getD i .null
  | none => .null

/-- Column j of a row list. -/
def getColVals (rows : List (List Value)) (j : Nat) : List Value :=
  rows.map (fun r => r.getD j .null)

/-! ### clean_data (data_cleaning.py lines 19-23)
`df.dropna(inplace=True)`: drop every row containing a null. -/

def clean_data (df : Batch) : Batch :=
  ⟨df.cols, df.rows.filter (fun r => !(r.any Value.isNull))⟩

/-! ### normalize_data (data_cleaning.py lines 41-47)
`applymap(lambda x: x.lower() if isinstance(x, str) else x)` then
`.dt.strftime` on datetime-dtyped columns. -/

/-- Python str.lower, modelled characterwise over the ASCII-letter subset. -/
def strLower (s : String) : String := ⟨s.data.map Char.toLower⟩

def lowerValue : Value → Value
  | .str s => .str (strLower s)
  | v => v

/-- Rendering of a timestamp by strftime with the fixed pattern
%Y-%m-%d %H:%M:%S, abstracted to an injective rendering of the tick. -/
def formatDateTime (t : ℤ) : String := "ts:" ++ toString t

/-- strftime over one cell of a datetime column: NaT renders to NaN (null). -/
def strftimeValue : Value → Value
  | .date t => .str (formatDateTime t)
  | .natt => .null
  | v => v

/-- Contents-based dtype test: nonempty and all timestamps/NaT. -/
def isDatetimeCol (vs : List Value) : Bool :=
  !vs.isEmpty && vs.all Value.isDateLike

/-- Apply strftime at the column positions flagged true. -/
def applyFlags : List Bool → List Value → List Value
  | b :: bs, v :: vs => (if b then strftimeValue v else v) :: applyFlags bs vs
  | _, vs => vs

/-- Per-row action of normalize_data (the flags depend on the whole frame). -/
def normRow (flags : List Bool) (r : List Value) : List Value :=
  applyFlags flags (r.map lowerValue)

def normFlags (df : Batch) : List Bool :=
  let rows1 := df.rows.map (fun r => r.map lowerValue)
  (List.range df.cols.length).map (fun j => isDatetimeCol (getColVals rows1 j))

def normalize_data (df : Batch) : Batch :=
  ⟨df.cols, df.rows.map (normRow (normFlags df))⟩

/-! ### aggregate_data (data_cleaning.py lines 64-70)
`df.groupby(category, as_index=False)[amount].sum()` when both columns are
present: one output row per category key (null keys dropped, keys sorted),
holding the key and the summed amount; all other columns dropped. -/

/-- Total comparison on values used to sort group keys. -/
def valueLt : Value → Value → Bool
  | .null, .null => false
  | .null, _ => true
  | .natt, .null => false
  | .natt, .natt => false
  | .natt, _ => true
  | .num a, .num b => decide (a < b)
  | .num _, .str _ => true
  | .num _, .date _ => true
  | .num _, _ => false
  | .str a, .str b => decide (a < b)
  | .str _, .date _ => true
  | .str _, _ => false
  | .date a, .date b => decide (a < b)
  | .date _, _ => false

def insertSorted (v : Value) : List Value → List Value
  | [] => [v]
  | w :: ws => if valueLt v w then v :: w :: ws else w :: insertSorted v ws

def sortValues : List Value → List Value
  | [] => []
  | v :: vs => insertSorted v (sortValues vs)

/-- Distinct elements in order of first occurrence. -/
def dedupValues (seen : List Value) : List Value → List Value
  | [] => []
  | v :: vs => if v ∈ seen then dedupValues seen vs
               else v :: dedupValues (v :: seen) vs

/-- groupby sum over one group's amounts: NaN skipped (skipna), numbers add,
object (string) columns concatenate, anything mixed raises. -/
def sumValues (vs : List Value) : Except String Value :=
  let ws := vs.filter (fun v => !v.isNull)
  if ws.all (fun v => v.isStr) ∧ ws ≠ [] then
    .ok (.str (ws.foldl (fun a v => match v with | .str s => a ++ s | _ => a) ""))
  else if ws.all (fun v => match v with | .num _ => true | _ => false) then
    .ok (.num (ws.foldl (fun a v => match v with | .num q => a + q | _ => a) 0))
  else .error "TypeError: mixed sum"

/-- One output row [key, summed amount] per group key. -/
def aggRows (keyOf amtOf : List Value → Value) (rows : List (List Value)) :
    List Value → Except String (List (List Value))
  | [] => .ok []
  | k :: ks =>
    match sumValues ((rows.filter (fun r => keyOf r = k)).map amtOf) with
    | .error e => .error e
    | .ok s =>
      match aggRows keyOf amtOf rows ks with
      | .error e => .error e
      | .ok rest => .ok ([k, s] :: rest)

def aggKeys (df : Batch) : List Value :=
  sortValues (dedupValues []
    ((df.rows.filter (fun r => !(rowVal df.cols r "category").isNull)).map
      (fun r => rowVal df.cols r "category")))

def aggregate_data (df : Batch) : Except String Batch :=
  if df.cols.contains "category" && df.cols.contains "amount" then
    match aggRows (fun r => rowVal df.cols r "category")
        (fun r => rowVal df.cols r "amount") df.rows (aggKeys df) with
    | .error e => .error e
    | .ok rows => .ok ⟨["category", "amount"], rows⟩
  else .ok df

/-! ### filter_data (data_cleaning.py lines 88-91)
Keep rows whose status equals the literal lowercase string active, when a
status column exists. Scalar comparison with a non-string is just unequal. -/

def filter_data (df : Batch) : Batch :=
  if df.cols.contains "status" then
    ⟨df.cols, df.rows.filter (fun r => rowVal df.cols r "status" = .str "active")⟩
  else df

/-! ### convert_data_types (data_cleaning.py lines 110-122)
Pass 1: for each object-dtyped column try pd.to_numeric; ValueError is caught
(column left as is), TypeError (a timestamp inside an object column)
propagates. Pass 2: for each column whose name contains the substring date,
pd.to_datetime(errors=coerce, dayfirst=True): unparseable values become NaT. -/

inductive PyErr where
  | valueError
  | typeError
deriving DecidableEq, Repr

def digitToNat (c : Char) : Nat := c.toNat - 48

def digitsToNat (ds : List Char) : Nat :=
  ds.foldl (fun a c => a * 10 + digitToNat c) 0

def takeDigits : List Char → List Char × List Char
  | [] => ([], [])
  | c :: cs =>
    if c.isDigit then
      let p := takeDigits cs
      (c :: p.1, p.2)
    else ([], c :: cs)

def parseNumAfterSign (cs : List Char) : Option (ℚ × List Char) :=
  match takeDigits cs with
  | ([], _) => none
  | (d :: ds, []) => some ((digitsToNat (d :: ds) : ℚ), [])
  | (d :: ds, c :: r2) =>
    if c = '.' then
      match takeDigits r2 with
      | ([], _) => none
      | (f1 :: fs, f2) =>
        some ((digitsToNat (d :: ds) : ℚ) +
          (digitsToNat (f1 :: fs) : ℚ) / ((10 : ℚ) ^ (f1 :: fs).length), f2)
    else some ((digitsToNat (d :: ds) : ℚ), c :: r2)

def parseNumTok (cs : List Char) : Option (ℚ × List Char) :=
  match cs with
  | [] => none
  | c :: r =>
    if c = '-' then (parseNumAfterSign r).map (fun p => (-p.1, p.2))
    else parseNumAfterSign (c :: r)

/-- Numeric literal recognizer standing for pd.to_numeric on one string
(decimal integers and decimal fractions, optional leading minus). -/
def parseNumString (s : String) : Option ℚ :=
  match parseNumTok s.toList with
  | some (q, []) => some q
  | _ => none

def toNumericValue : Value → Except PyErr Value
  | .num q => .ok (.num q)
  | .null => .ok .null
  | .str s =>
    match parseNumString s with
    | some q => .ok (.num q)
    | none => .error .valueError
  | .natt => .error .typeError
  | .date _ => .error .typeError

def mapValuesE (f : Value → Except PyErr Value) : List Value → Except PyErr (List Value)
  | [] => .ok []
  | v :: vs =>
    match f v with
    | .error e => .error e
    | .ok w =>
      match mapValuesE f vs with
      | .error e => .error e
      | .ok ws => .ok (w :: ws)

/-- ISO date recognizer standing for pd.to_datetime on one string (dayfirst
only disambiguates non-ISO forms, which coerce to NaT in this model). The
tick encodes the calendar date. -/
def parseDateString (s : String) : Option ℤ :=
  match s.toList with
  | [y1, y2, y3, y4, h1, m1, m2, h2, d1, d2] =>
    if y1.isDigit ∧ y2.isDigit ∧ y3.isDigit ∧ y4.isDigit ∧ h1 = '-' ∧
       m1.isDigit ∧ m2.isDigit ∧ h2 = '-' ∧ d1.isDigit ∧ d2.isDigit then
      let m := digitsToNat [m1, m2]
      let d := digitsToNat [d1, d2]
      if 1 ≤ m ∧ m ≤ 12 ∧ 1 ≤ d ∧ d ≤ 31 then
        some (((digitsToNat [y1, y2, y3, y4] * 100 + m) * 100 + d : Nat) : ℤ)
      else none
    else none
  | _ => none

/-- pd.to_datetime with errors=coerce: total, anything unparseable is NaT;
numbers are epoch ticks. -/
def toDatetimeValue : Value → Value
  | .date t => .date t
  | .natt => .natt
  | .null => .natt
  | .num q => .date ⌊q⌋
  | .str s =>
    match parseDateString s with
    | some t => .date t
    | none => .natt

def leadsWith : List Char → List Char → Bool
  | [], _ => true
  | _ :: _, [] => false
  | a :: as, b :: bs => a = b && leadsWith as bs

def containsSeq (needle : List Char) : List Char → Bool
  | [] => needle.isEmpty
  | c :: cs => leadsWith needle (c :: cs) || containsSeq needle cs

/-- The substring test `'date' in col` on a column name. -/
def isDateName (c : String) : Bool := containsSeq "date".toList c.toList

/-- Replace column j of every row ( df[col] = series assignment ). -/
def setColIdx (rows : List (List Value)) (j : Nat) (vs : List Value) : List (List Value) :=
  rows.zipWith (fun r v => r.set j v) vs

def convPass1 (rows : List (List Value)) : List Nat → Except String (List (List Value))
  | [] => .ok rows
  | j :: js =>
    let col := getColVals rows j
    if col.any Value.isStr then
      match mapValuesE toNumericValue col with
      | .ok vs => convPass1 (setColIdx rows j vs) js
      | .error .valueError => convPass1 rows js
      | .error .typeError => .error "TypeError: to_numeric on object column"
    else convPass1 rows js

def convPass2 (cols : List String) (rows : List (List Value)) : List Nat → List (List Value)
  | [] => rows
  | j :: js =>
    if isDateName (cols.getD j "") then
      convPass2 cols (setColIdx rows j ((getColVals rows j).map toDatetimeValue)) js
    else convPass2 cols rows js

def convert_data_types (df : Batch) : Except String Batch :=
  match convPass1 df.rows (List.range df.cols.length) with
  | .error e => .error e
  | .ok rows1 => .ok ⟨df.cols, convPass2 df.cols rows1 (List.range df.cols.length)⟩

/-! ### remove_duplicates (data_cleaning.py lines 137-141)
drop_duplicates keeps the first occurrence of each distinct row (NaN/NaT
entries compare equal for this purpose, hence structural equality). -/

def dedupRows (seen : List (List Value)) : List (List Value) → List (List Value)
  | [] => []
  | r :: rs => if r ∈ seen then dedupRows seen rs
               else r :: dedupRows (r :: seen) rs

def remove_duplicates (df : Batch) : Batch :=
  ⟨df.cols, dedupRows [] df.rows⟩

/-! ### map_fields (data_cleaning.py lines 161-166)
Static single-entry rename table. -/

def renameCol (c : String) : String :=
  if c = "old_column_name" then "new_column_name" else c

def map_fields (df : Batch) : Batch :=
  ⟨df.cols.map renameCol, df.rows⟩

/-! ### validate_data (data_cleaning.py lines 183-188)
`df[df[amount].between(0, 1000000)]` when an amount column exists; between is
inclusive at both ends; NaN/NaT fail the check; comparing a string or a
timestamp against the numeric bounds raises. -/

def betweenAmount : Value → Except String Bool
  | .num q => .ok (decide (0 ≤ q ∧ q ≤ 1000000))
  | .null => .ok false
  | .natt => .ok false
  | _ => .error "TypeError: comparison of non-numeric amount"

def filterE (p : List Value → Except String Bool) :
    List (List Value) → Except String (List (List Value))
  | [] => .ok []
  | r :: rs =>
    match p r with
    | .error e => .error e
    | .ok b =>
      match filterE p rs with
      | .error e => .error e
      | .ok l => .ok (if b then r :: l else l)

def validate_data (df : Batch) : Except String Batch :=
  if df.cols.contains "amount" then
    match filterE (fun r => betweenAmount (rowVal df.cols r "amount")) df.rows with
    | .error e => .error e
    | .ok rows => .ok ⟨df.cols, rows⟩
  else .ok df

/-! ### The payload serializer (data_cleaning.py line 235)
`json.dumps(x.to_dict()).replace(single-quote, backslash single-quote)`. -/

/-- JSON string escaping (double quote and backslash). -/
def escJ : List Char → List Char
  | [] => []
  | c :: cs =>
    if c = dQuote ∨ c = bSlash then bSlash :: c :: escJ cs else c :: escJ cs

def dumpJString (s : String) : List Char := dQuote :: (escJ s.data ++ [dQuote])

/-- Digits of n, most significant first (fuel-structured for kernel
evaluation; fuel at least n suffices). -/
def natDigitsAux : Nat → Nat → List Char
  | 0, _ => []
  | f + 1, n =>
    if n < 10 then [Char.ofNat (48 + n)]
    else natDigitsAux f (n / 10) ++ [Char.ofNat (48 + n % 10)]

def natDigits (n : Nat) : List Char := natDigitsAux (n + 1) n

def intChars (i : ℤ) : List Char :=
  if i < 0 then '-' :: natDigits i.natAbs else natDigits i.natAbs

/-- Pad digits on the left with zeros to width w. -/
def padZeros (w : Nat) (ds : List Char) : List Char :=
  List.replicate (w - ds.length) '0' ++ ds

/-- Exact decimal rendering of num * 10^-k (k > 0): sign, integer part,
point, k fraction digits. -/
def decChars (num : ℤ) (k : Nat) : List Char :=
  let a := num.natAbs
  let ip := natDigits (a / 10 ^ k)
  let fp := padZeros k (natDigits (a % 10 ^ k))
  (if num < 0 then ['-'] else []) ++ ip ++ '.' :: fp

/-- Least k with q.den dividing 10^k, when one exists below the float64
bound (binary floats always have one). -/
def tenExp (q : ℚ) : Option Nat :=
  (List.range 1200).find? (fun k => q.den ∣ 10 ^ k)

/-- json.dumps of one scalar: floats as exact decimals, ints plain, None as
null; Timestamp/NaT raise TypeError (none). -/
def jsonDumpValue : Value → Option (List Char)
  | .null => some "null".data
  | .natt => none
  | .date _ => none
  | .str s => some (dumpJString s)
  | .num q =>
    match tenExp q with
    | none => none
    | some k =>
      if k = 0 then some (intChars q.num)
      else some (decChars (q.num * ((10 ^ k : ℕ) / q.den : ℕ)) k)

/-- json.dumps of a dict with the default separators: open brace, comma-space
between pairs, colon-space inside a pair, close brace. -/
def jsonDumpPairsAux : List (String × Value) → Option (List Char)
  | [] => some []
  | (c, v) :: rest =>
    match jsonDumpValue v with
    | none => none
    | some vd =>
      match jsonDumpPairsAux rest with
      | none => none
      | some rd =>
        some (dumpJString c ++ ':' :: ' ' :: vd ++
          (if rest.isEmpty then [] else ',' :: ' ' :: rd))

def jsonDumpPairs (m : List (String × Value)) : Option (List Char) :=
  match jsonDumpPairsAux m with
  | none => none
  | some body => some (lBrace :: (body ++ [rBrace]))

/-- The single-quote escaping applied to the dumped payload. -/
def escQ : List Char → List Char
  | [] => []
  | c :: cs => if c = qQuote then bSlash :: qQuote :: escQ cs else c :: escQ cs

/-- str.replace(backslash-quote, quote): left-to-right, non-overlapping. -/
def unescQ : List Char → List Char
  | [] => []
  | [c] => [c]
  | c :: d :: cs2 =>
    if c = bSlash ∧ d = qQuote then qQuote :: unescQ cs2
    else c :: unescQ (d :: cs2)

def escQstr (s : String) : String := ⟨escQ s.data⟩

def unescQstr (s : String) : String := ⟨unescQ s.data⟩

/-- Serialize one row dict to the stored payload text. -/
def rowPayload (cols : List String) (r : List Value) : Option String :=
  (jsonDumpPairs (cols.zip r)).map (fun cs => ⟨escQ cs⟩)

/-! ### transform_data (data_cleaning.py lines 226-243) -/

/-- Column assignment df[c] = vals: replace the column when the label exists,
append it otherwise. -/
def setCol (df : Batch) (c : String) (vals : List Value) : Batch :=
  match firstIdx df.cols c with
  | some i => ⟨df.cols, df.rows.zipWith (fun r v => r.set i v) vals⟩
  | none => ⟨df.cols ++ [c], df.rows.zipWith (fun r v => r ++ [v]) vals⟩

/-- Reasoning view of setCol: its effect on one row. -/
def setCell (cols : List String) (c : String) (r : List Value) (v : Value) :
    List Value :=
  match firstIdx cols c with
  | some i => r.set i v
  | none => r ++ [v]

/-- Reasoning view of setCol: its effect on the header. -/
def setCellCols (cols : List String) (c : String) : List String :=
  match firstIdx cols c with
  | some _ => cols
  | none => cols ++ [c]

/-- Projection df[[cs]] (pandas raises on a missing label; in transform_data
the three selected labels always exist by construction). -/
def selectCols (df : Batch) (cs : List String) : Batch :=
  ⟨cs, df.rows.map (fun r => cs.map (fun c => rowVal df.cols r c))⟩

def mapOpt (f : α → Option β) : List α → Option (List β)
  | [] => some []
  | a :: l =>
    match f a with
    | none => none
    | some b =>
      match mapOpt f l with
      | none => none
      | some bs => some (b :: bs)

/-- The metadata-attachment tail of transform_data (lines 235-241): assign
the data column (the per-row payloads), assign the tag column, synthesize
date_time with the current timestamp when absent, and project the three
canonical columns. -/
def attachMetadata (now : ℤ) (t : String) (df : Batch)
    (payloads : List String) : Batch :=
  let df1 := setCol df "data" (payloads.map Value.str)
  let df2 := setCol df1 "tag" (df1.rows.map (fun _ => Value.str t))
  let df3 := if df2.cols.contains "date_time" then df2
             else setCol df2 "date_time" (df2.rows.map (fun _ => Value.date now))
  selectCols df3 ["data", "date_time", "tag"]

def transform_data (now : ℤ) (df0 : Batch) (table_name : String) :
    Except String Batch :=
  match aggregate_data (normalize_data (clean_data df0)) with
  | .error e => .error e
  | .ok dfa =>
    match convert_data_types (filter_data dfa) with
    | .error e => .error e
    | .ok dfc =>
      match validate_data (map_fields (remove_duplicates dfc)) with
      | .error e => .error e
      | .ok df =>
        match mapOpt (fun r => rowPayload df.cols r) df.rows with
        | none => .error "TypeError: Object not JSON serializable"
        | some payloads => .ok (attachMetadata now table_name df payloads)

-- transform_data is the full pipeline plus metadata attachment and
-- projection; now is the clock value read by pd.to_datetime(now).

/-! ### Parsing a payload back (decoder for the serialized map format) -/

def parseStrBody : List Char → Option (List Char × List Char)
  | [] => none
  | [c] => if c = dQuote then some ([], []) else none
  | c :: d :: rest2 =>
    if c = dQuote then some ([], d :: rest2)
    else if c = bSlash then (parseStrBody rest2).map (fun p => (d :: p.1, p.2))
    else (parseStrBody (d :: rest2)).map (fun p => (c :: p.1, p.2))

def parseValueTok (cs : List Char) : Option (Value × List Char) :=
  match cs with
  | [] => none
  | c :: r =>
    if c = dQuote then (parseStrBody r).map (fun p => (Value.str ⟨p.1⟩, p.2))
    else if c = 'n' then
      match r with
      | 'u' :: 'l' :: 'l' :: r2 => some (Value.null, r2)
      | _ => none
    else (parseNumTok (c :: r)).map (fun p => (Value.num p.1, p.2))

/-- After one field's value token: a comma-space continues with the recursive
parse, a closing brace ends the record. -/
def pairsAfterValue (recurse : List Char → Option (List (String × Value) × List Char))
    (s : List Char) (res : Option (Value × List Char)) :
    Option (List (String × Value) × List Char) :=
  match res with
  | none => none
  | some p2 =>
    match p2.2 with
    | [] => none
    | c2 :: r4 =>
      if c2 = ',' then
        match r4 with
        | ' ' :: r5 => (recurse r5).map (fun p => ((⟨s⟩, p2.1) :: p.1, p.2))
        | _ => none
      else if c2 = rBrace then some ([(⟨s⟩, p2.1)], r4)
      else none

/-- After a field name: expect colon-space, then the value token. -/
def pairsAfterStr (recurse : List Char → Option (List (String × Value) × List Char))
    (res : Option (List Char × List Char)) :
    Option (List (String × Value) × List Char) :=
  match res with
  | none => none
  | some p1 =>
    match p1.2 with
    | ':' :: ' ' :: r2 => pairsAfterValue recurse p1.1 (parseValueTok r2)
    | _ => none

def parsePairsAux : Nat → List Char → Option (List (String × Value) × List Char)
  | 0, _ => none
  | fuel + 1, cs =>
    match cs with
    | [] => none
    | c :: r =>
      if c = dQuote then pairsAfterStr (parsePairsAux fuel) (parseStrBody r)
      else none

/-- Deserialize a payload (after undoing the single-quote escaping) back to
the field/value mapping. -/
def jsonParseRecord (s : String) : Option (List (String × Value)) :=
  match s.data with
  | [] => none
  | c :: r =>
    if c = lBrace then
      match r with
      | [] => none
      | d :: r2 =>
        if d = rBrace then (if r2.isEmpty then some [] else none)
        else
          match parsePairsAux (r.length + 1) r with
          | some (m, []) => some m
          | _ => none
    else none

/-! ### retry_on_failure (retry.py lines 24-37)
The wrapper's observable behaviour as an event trace: `op k` is the outcome
of the k-th invocation of the wrapped operation (none = raised). -/

def MAX_RETRIES : Nat := 3

def RETRY_DELAY : Nat := 5

inductive REvent where
  | attempt (i : Nat)
  | logError (fname : String) (i : Nat)
  | sleep (d : Nat)
  | logCritical (fname : String)
  | raised (msg : String)
deriving DecidableEq, Repr

/-- The while loop: fuel counts the remaining allowed attempts, i is the
attempt number about to run (retries+1 in the source). Each failure logs
with its attempt count and sleeps RETRY_DELAY; exhaustion logs critically
and raises the aggregated error. -/
def retryGo {α : Type} (fname : String) (op : Nat → Option α) :
    Nat → Nat → List REvent × Option α
  | 0, _ =>
    ([.logCritical fname,
      .raised ("Function " ++ fname ++ " failed after " ++
        toString MAX_RETRIES ++ " attempts.")], none)
  | fuel + 1, i =>
    match op i with
    | some a => ([.attempt i], some a)
    | none =>
      let p := retryGo fname op fuel (i + 1)
      (.attempt i :: .logError fname i :: .sleep RETRY_DELAY :: p.1, p.2)

def retry_on_failure {α : Type} (fname : String) (op : Nat → Option α) :
    List REvent × Option α :=
  retryGo fname op MAX_RETRIES 1

def REvent.isAttempt : REvent → Bool
  | .attempt _ => true
  | _ => false

/-! ### The sink and the orchestrator
(clickhouse_utils.py and etl_process.py). The single destination table
grupox is a row list; a stored row is the Value triple coming from the
transformed frame (payload text, captured-at, tag). The SQL literal
formatting of the INSERT is abstracted to appending the rows. -/

abbrev SinkRow : Type := List Value

/-- Position of the tag column in the grupox schema (data, date_time, tag). -/
def tagOfRow (r : SinkRow) : Value := List.getD r 2 .null

def countTag (sink : List SinkRow) (tag : String) : Nat :=
  sink.countP (fun r => tagOfRow r = .str tag)

/-- check_existing_records (clickhouse_utils.py lines 41-65):
SELECT COUNT(*) FROM table WHERE tag = tag, then count > 0. The model
database holds the single table grupox, so the table_name argument selects
the whole sink. -/
def check_existing_records (sink : List SinkRow) (table_name tag : String) : Bool :=
  decide (countTag sink tag > 0)

/-- load_data_to_ClickHouse (clickhouse_utils.py lines 68-100): a multi-row
INSERT built by joining one parenthesized tuple per row; with zero rows the
generated statement has an empty VALUES clause and the sink rejects it. -/
def load_data_to_ClickHouse (sink : List SinkRow) (df : Batch) :
    Except String (List SinkRow) :=
  if df.rows.isEmpty then .error "Syntax error: empty VALUES clause"
  else .ok (sink ++ df.rows)

/-- The extraction environment: the source tables and the batches the
server-side cursor yields for each (etl_process.py line 52). -/
structure Env where
  tables : List String
  batches : String → List Batch

/-- The per-batch body of the table loop: transform, dedupe, load
(etl_process.py lines 52-55). The Bool records normal completion; on an
exception the sink keeps the rows already inserted. -/
def processBatches (now : ℤ) (t : String) (sink : List SinkRow) :
    List Batch → List SinkRow × Bool
  | [] => (sink, true)
  | b :: bs =>
    match transform_data now b t with
    | .error _ => (sink, false)
    | .ok tdf =>
      match load_data_to_ClickHouse sink (remove_duplicates tdf) with
      | .error _ => (sink, false)
      | .ok sink1 => processBatches now t sink1 bs

/-- The table loop (etl_process.py lines 47-55): skip a table when records
with its tag already exist, otherwise process its batches; an error aborts
the remaining tables. -/
def processTables (env : Env) (now : ℤ) :
    List SinkRow → List String → List String → List SinkRow × List String × Bool
  | sink, skipped, [] => (sink, skipped, true)
  | sink, skipped, t :: ts =>
    if check_existing_records sink "grupox" t then
      processTables env now sink (skipped ++ [t]) ts
    else
      let p := processBatches now t sink (env.batches t)
      if p.2 then processTables env now p.1 skipped ts
      else (p.1, skipped, false)

/-- run_etl: the whole per-table loop from a given sink state. -/
def run_etl (env : Env) (now : ℤ) (sink0 : List SinkRow) :
    List SinkRow × List String × Bool :=
  processTables env now sink0 [] env.tables

/-- Connection bookkeeping of etl_process (etl_process.py lines 40-60): the
try/finally closes the Supabase connection on every path; no close is ever
issued on the ClickHouse client. -/
structure ConnState where
  connClosed : Bool
  clientClosed : Bool
deriving DecidableEq, Repr

def etl_process (env : Env) (now : ℤ) (sink0 : List SinkRow) :
    (List SinkRow × List String × Bool) × ConnState :=
  (run_etl env now sink0, ⟨true, false⟩)

/-! ### Aliasing behaviour of the stages (claim C9)
Each *_argAfter definition records the state of the caller's DataFrame
object after the call returns, per the source's use of inplace operations. -/

/-- clean_data runs df.dropna(inplace=True) (line 21): the caller's object
is the mutated frame, which is also the returned one. -/
def clean_data_argAfter (df : Batch) : Batch := clean_data df

/-- normalize_data rebinds df to the fresh frame produced by applymap
(line 43) and mutates only that copy; the caller's object is untouched. -/
def normalize_data_argAfter (df : Batch) : Batch := df

/-- aggregate_data rebinds df to the groupby result (line 68). -/
def aggregate_data_argAfter (df : Batch) : Batch := df

/-- filter_data rebinds df to a boolean-mask selection (line 90). -/
def filter_data_argAfter (df : Batch) : Batch := df

/-- validate_data rebinds df to a boolean-mask selection (line 186). -/
def validate_data_argAfter (df : Batch) : Batch := df

/-- remove_duplicates runs drop_duplicates(inplace=True) (line 139). -/
def remove_duplicates_argAfter (df : Batch) : Batch := remove_duplicates df

/-- map_fields runs rename(inplace=True) (line 164). -/
def map_fields_argAfter (df : Batch) : Batch := map_fields df

/-- transform_data's first stage mutates the caller's object in place
(dropna); normalize then replaces the frame, so the later in-place stages
(column conversion, dedupe, rename, metadata columns) act on the copy and
the caller is left holding clean_data's output. -/
def transform_data_argAfter (df : Batch) : Batch := clean_data df

/-! ### Concrete inputs used by the claims -/

/-- The two-row orders batch of the end-to-end scenario. -/
def c1Input : Batch :=
  ⟨["status", "amount", "category", "date_created"],
   [[.str "active", .num 500, .str "a", .str "2024-01-05"],
    [.str "inactive", .num 10, .str "a", .str "2024-01-06"]]⟩

def c1Payload : String := "\x7b\"category\": \"a\", \"amount\": 510\x7d"

def Value.isNum : Value → Bool
  | .num _ => true
  | _ => false

/-- The validate predicate on a numeric amount, as a Bool. -/
def betweenPure : Value → Bool
  | .num q => decide (0 ≤ q ∧ q ≤ 1000000)
  | _ => false

/-- Boundary batch for the validation claim: 0 and 1000000 on the
boundaries, -0.01 and 1000000.01 just outside. -/
def c6Batch : Batch :=
  ⟨["amount"],
   [[.num 0], [.num 1000000], [.num (-1 / 100)], [.num (1000000 + 1 / 100)]]⟩

/-- A one-row batch with a null, exercising dropna's in-place mutation. -/
def c9Batch : Batch := ⟨["x"], [[Value.null]]⟩

def c10Batch : Batch := ⟨["status"], [[.str "Active"]]⟩

def c2Batch : Batch := ⟨["a"], [[.str "x"]]⟩

/-- One-table environment for the two-run scenario. -/
def c5Env : Env := ⟨["t1"], fun u => if u = "t1" then [c2Batch] else []⟩

/-- The sink contents after the first successful run over c5Env. -/
def c5Sink : List SinkRow := [[.str "\x7b\"a\": \"x\"\x7d", .date 0, .str "t1"]]

/-- Concrete record used to exercise the payload round-trip: a string field
containing a single quote (so the escaping applies) and a decimal amount. -/
def c7Cols : List String := ["category", "amount"]

def c7Row : List Value := [.str ⟨['i', 't', qQuote, 's']⟩, .num ((51 : ℚ) / 10)]

def c7Payload : String := (rowPayload c7Cols c7Row).getD ""

/-- Claim C1: on the two-row orders batch, transform returns exactly one
record, tagged orders, with a non-null date_time, whose payload decodes to
the category-a aggregate with amount 510: aggregation runs before filtering,
projects away status, and the active filter is a no-op. -/
theorem c1_transform_orders_end_to_end :
    (∀ now : ℤ, transform_data now c1Input "orders" =
      .ok ⟨["data", "date_time", "tag"],
           [[.str c1Payload, .date now, .str "orders"]]⟩) ∧
    jsonParseRecord (unescQstr c1Payload) =
      some [("category", .str "a"), ("amount", .num 510)] ∧
    (Value.date 0).isNull = false := by
  refine ⟨fun now => ?_, by decide, rfl⟩
  set_option maxRecDepth 4000 in rfl

/-! ## Claim C4 -/

/-- Claim C4: an operation failing on every invocation is attempted exactly
MAX_RETRIES = 3 times; each failure is logged with its attempt count and
followed by the fixed RETRY_DELAY = 5 sleep; after the last failed attempt a
single aggregated fatal error naming the operation and the attempt count is
raised (no result is returned). -/
theorem c4_retry_exhaustion_trace {α : Type} (fname : String)
    (op : Nat → Option α) (h : ∀ k, op k = none) :
    retry_on_failure fname op =
      ([.attempt 1, .logError fname 1, .sleep RETRY_DELAY,
        .attempt 2, .logError fname 2, .sleep RETRY_DELAY,
        .attempt 3, .logError fname 3, .sleep RETRY_DELAY,
        .logCritical fname,
        .raised ("Function " ++ fname ++ " failed after " ++
          toString MAX_RETRIES ++ " attempts.")], none) ∧
    (retry_on_failure fname op).1.countP REvent.isAttempt = MAX_RETRIES := by
  have e : retry_on_failure fname op =
      ([.attempt 1, .logError fname 1, .sleep RETRY_DELAY,
        .attempt 2, .logError fname 2, .sleep RETRY_DELAY,
        .attempt 3, .logError fname 3, .sleep RETRY_DELAY,
        .logCritical fname,
        .raised ("Function " ++ fname ++ " failed after " ++
          toString MAX_RETRIES ++ " attempts.")], none) := by
    simp [retry_on_failure, MAX_RETRIES, retryGo, h]
  refine ⟨e, ?_⟩
  rw [e]
  rfl

theorem c4_retry_exhaustion_trace_witness :
    retry_on_failure "connect_to_supabase" (fun _ => (none : Option Unit)) =
      ([.attempt 1, .logError "connect_to_supabase" 1, .sleep RETRY_DELAY,
        .attempt 2, .logError "connect_to_supabase" 2, .sleep RETRY_DELAY,
        .attempt 3, .logError "connect_to_supabase" 3, .sleep RETRY_DELAY,
        .logCritical "connect_to_supabase",
        .raised "Function connect_to_supabase failed after 3 attempts."], none) ∧
    (retry_on_failure "connect_to_supabase"
        (fun _ => (none : Option Unit))).1.countP REvent.isAttempt = MAX_RETRIES :=
  c4_retry_exhaustion_trace "connect_to_supabase" (fun _ => none) (fun _ => rfl)

/-! ## Claim C6 -/

theorem filterE_congr_ok (q : List Value → Bool)
    (p : List Value → Except String Bool) (l : List (List Value))
    (h : ∀ r ∈ l, p r = .ok (q r)) :
    filterE p l = .ok (l.filter q) := by
  induction l with
  | nil => rfl
  | cons a t ih =>
    have ha := h a (List.mem_cons_self a t)
    have ht := ih (fun r hr => h r (List.mem_cons_of_mem a hr))
    by_cases hqa : q a = true <;>
      simp [filterE, ha, ht, List.filter_cons, hqa]

/-- Claim C6: when an amount column is present (and holds numbers, as the
bounds comparison presupposes), validate keeps exactly the rows whose amount
q satisfies 0 <= q and q <= 1000000, both boundaries inclusive. -/
theorem c6_validate_amount_boundaries (df : Batch)
    (hc : df.cols.contains "amount" = true)
    (hnum : df.rows.all (fun r => (rowVal df.cols r "amount").isNum) = true) :
    validate_data df =
      .ok ⟨df.cols, df.rows.filter
        (fun r => betweenPure (rowVal df.cols r "amount"))⟩ := by
  rw [List.all_eq_true] at hnum
  have hfe := filterE_congr_ok (fun r => betweenPure (rowVal df.cols r "amount"))
    (fun r => betweenAmount (rowVal df.cols r "amount")) df.rows ?_
  · unfold validate_data
    rw [if_pos hc, hfe]
  · intro r hr
    have hn := hnum r hr
    show betweenAmount (rowVal df.cols r "amount") =
      .ok (betweenPure (rowVal df.cols r "amount"))
    cases hv : rowVal df.cols r "amount" with
    | num q2 => rfl
    | null => rfl
    | natt => rfl
    | str s2 => rw [hv] at hn; simp [Value.isNum] at hn
    | date t2 => rw [hv] at hn; simp [Value.isNum] at hn

theorem c6_validate_amount_boundaries_witness :
    validate_data c6Batch = .ok ⟨["amount"], [[.num 0], [.num 1000000]]⟩ := by
  have h := c6_validate_amount_boundaries c6Batch (by decide) (by decide)
  rw [h]
  decide

/-! ## Claim C8 -/

theorem mem_applyFlags {v : Value} :
    ∀ (bs : List Bool) (l : List Value), v ∈ applyFlags bs l →
      ∃ w, w ∈ l ∧ (v = w ∨ v = strftimeValue w) := by
  intro bs
  induction bs with
  | nil => intro l hv; exact ⟨v, hv, Or.inl rfl⟩
  | cons b bs ih =>
    intro l hv
    cases l with
    | nil => simp [applyFlags] at hv
    | cons w ws =>
      rw [applyFlags] at hv
      rcases List.mem_cons.1 hv with h1 | h2
      · by_cases hb : b = true
        · exact ⟨w, List.mem_cons_self w ws, Or.inr (by rw [h1, hb]; simp)⟩
        · have hb2 : b = false := by
            cases b
            · rfl
            · exact absurd rfl hb
          exact ⟨w, List.mem_cons_self w ws, Or.inl (by rw [h1, hb2]; simp)⟩
      · obtain ⟨w2, hw2, hcase⟩ := ih ws h2
        exact ⟨w2, List.mem_cons_of_mem w hw2, hcase⟩

theorem lower_strftime_nonNull (u : Value) (h : u.isNull = false) :
    (lowerValue u).isNull = false ∧
      (strftimeValue (lowerValue u)).isNull = false := by
  cases u <;> simp_all [Value.isNull, lowerValue, strftimeValue]

/-- Claim C8: clean followed by normalize yields a batch with no null values
and with exactly as many rows as clean's output alone; normalize neither
reintroduces nulls nor changes the row count. -/
theorem c8_clean_normalize_no_nulls_rowcount (df : Batch) :
    ((normalize_data (clean_data df)).rows.all
        (fun r => r.all (fun v => !v.isNull)) = true) ∧
    (normalize_data (clean_data df)).rows.length = (clean_data df).rows.length := by
  constructor
  · rw [List.all_eq_true]
    intro r hr
    rw [List.all_eq_true]
    intro v hv
    simp only [normalize_data, List.mem_map] at hr
    obtain ⟨r0, hr0, rfl⟩ := hr
    simp only [clean_data, List.mem_filter] at hr0
    have hnull : ∀ u ∈ r0, u.isNull = false := by
      intro u hu
      have := hr0.2
      simp only [Bool.not_eq_true'] at this
      rcases h2 : u.isNull with _ | _
      · rfl
      · exact absurd (List.any_eq_true.2 ⟨u, hu, h2⟩) (by rw [this]; simp)
    rw [normRow] at hv
    obtain ⟨w, hwmem, hcase⟩ := mem_applyFlags _ _ hv
    obtain ⟨u, hu, rfl⟩ := List.mem_map.1 hwmem
    have hn := lower_strftime_nonNull u (hnull u hu)
    rcases hcase with rfl | rfl
    · simp [hn.1]
    · simp [hn.2]
  · simp [normalize_data]

/-! ## Claim C9 (corrected) -/

/-- Claim C9 counterexample: clean_data does not leave the caller's batch
unchanged; on a batch with a null row, dropna(inplace=True) mutates the
argument, so the claimed frame condition fails at the clean stage. -/
theorem c9_stage_purity_counterexample :
    ¬ (clean_data_argAfter c9Batch = c9Batch) := by decide

/-- Claim C9 amended: normalize, aggregate, filter and validate return
replacement batches and leave the caller's batch unchanged, but clean,
dedupe and field-mapping mutate the caller's batch in place (the argument
ends up equal to the returned batch), and after transform the caller's
batch holds clean's output (the first stage mutates it in place; normalize
then replaces the frame so later in-place stages act on the copy), which
differs from the original whenever a row was dropped. -/
theorem c9_stage_purity_amended :
    (∀ df : Batch, normalize_data_argAfter df = df ∧
      aggregate_data_argAfter df = df ∧ filter_data_argAfter df = df ∧
      validate_data_argAfter df = df) ∧
    (∀ df : Batch, clean_data_argAfter df = clean_data df ∧
      remove_duplicates_argAfter df = remove_duplicates df ∧
      map_fields_argAfter df = map_fields df ∧
      transform_data_argAfter df = clean_data df) ∧
    transform_data_argAfter c9Batch ≠ c9Batch :=
  ⟨fun _ => ⟨rfl, rfl, rfl, rfl⟩, fun _ => ⟨rfl, rfl, rfl, rfl⟩, by decide⟩

/-! ## Claim C10 -/

theorem getD_map_lower : ∀ (l : List Value) (j : Nat),
    (l.map lowerValue).getD j .null = lowerValue (l.getD j .null) := by
  intro l
  induction l with
  | nil => intro j; rfl
  | cons v vs ih =>
    intro j
    cases j with
    | zero => rfl
    | succ j2 => simp only [List.map_cons, List.getD_cons_succ, ih]

theorem getD_applyFlags_null : ∀ (bs : List Bool) (l : List Value) (j : Nat),
    (applyFlags bs l).getD j .null =
      (if bs.getD j false then strftimeValue (l.getD j .null)
       else l.getD j .null) := by
  intro bs
  induction bs with
  | nil => intro l j; rfl
  | cons b bs ih =>
    intro l j
    cases l with
    | nil =>
      cases j with
      | zero => cases b <;> rfl
      | succ j2 =>
        show (List.getD [] _ _) = _
        cases hb : (b :: bs).getD (j2 + 1) false <;> simp [List.getD_nil]
        rw [List.getD_cons_succ] at hb
        cases j2 <;> simp [List.getD_nil, strftimeValue]
    | cons v vs =>
      cases j with
      | zero => cases b <;> rfl
      | succ j2 =>
        rw [applyFlags]
        simp only [List.getD_cons_succ]
        exact ih vs j2

/-- Claim C10: inside transform the status filter compares for equality with
the exact lowercase literal active; since normalize has lowercased every
string field first, a record whose source status is the string s passes the
normalize-then-filter pair exactly when s lowercases to active (any
capitalization of active), and the filter keeps exactly the rows equal to
that literal. -/
theorem c10_filter_normalized_status (df : Batch)
    (hc : df.cols.contains "status" = true) :
    ((filter_data (normalize_data df)).rows =
      (normalize_data df).rows.filter
        (fun r => rowVal (normalize_data df).cols r "status" = .str "active")) ∧
    (∀ r ∈ df.rows, ∀ s : String, rowVal df.cols r "status" = .str s →
      (rowVal df.cols (normRow (normFlags df) r) "status" = .str "active" ↔
        strLower s = "active")) := by
  have hmem : "status" ∈ df.cols := by simpa using hc
  constructor
  · simp [filter_data, normalize_data, hmem]
  · intro r _ s hs
    cases hfi : firstIdx df.cols "status" with
    | none =>
      simp only [rowVal, hfi] at hs
      exact absurd hs (by simp)
    | some j =>
      simp only [rowVal, hfi] at hs
      simp only [rowVal, hfi, normRow]
      rw [getD_applyFlags_null, getD_map_lower, hs]
      cases hb : ((normFlags df).getD j false) <;>
        simp [lowerValue, strftimeValue]

/-! ## Shared list and header-lookup lemmas -/

theorem getD_set_self {α : Type} (l : List α) (j : Nat) (v d : α)
    (h : j < l.length) : (l.set j v).getD j d = v := by
  induction l generalizing j with
  | nil => simp at h
  | cons a t ih =>
    cases j with
    | zero => rfl
    | succ j2 => simpa using ih j2 (by simpa using h)

theorem getD_set_ne {α : Type} (l : List α) (i j : Nat) (v d : α)
    (h : i ≠ j) : (l.set i v).getD j d = l.getD j d := by
  induction l generalizing i j with
  | nil => rfl
  | cons a t ih =>
    cases i with
    | zero =>
      cases j with
      | zero => exact absurd rfl h
      | succ j2 => rfl
    | succ i2 =>
      cases j with
      | zero => rfl
      | succ j2 => simpa using ih i2 j2 (fun he => h (by rw [he]))

theorem getD_append_lt {α : Type} (l m : List α) (j : Nat) (d : α)
    (h : j < l.length) : (l ++ m).getD j d = l.getD j d := by
  induction l generalizing j with
  | nil => simp at h
  | cons a t ih =>
    cases j with
    | zero => rfl
    | succ j2 => simpa using ih j2 (by simpa using h)

theorem getD_append_len {α : Type} (l : List α) (v d : α) :
    (l ++ [v]).getD l.length d = v := by
  induction l with
  | nil => rfl
  | cons a t ih => simpa using ih

theorem getD_map_comm {α β : Type} (f : α → β) (l : List α) (j : Nat) (d : α) :
    (l.map f).getD j (f d) = f (l.getD j d) := by
  induction l generalizing j with
  | nil => rfl
  | cons a t ih =>
    cases j with
    | zero => rfl
    | succ j2 => simpa using ih j2

theorem zipWith_map_self {α β γ : Type} (f : α → β → γ) (g : α → β)
    (l : List α) : List.zipWith f l (l.map g) = l.map (fun a => f a (g a)) := by
  induction l with
  | nil => rfl
  | cons a t ih => simpa using ih

theorem mem_zip_getD {α β : Type} (l1 : List α) (l2 : List β) (j : Nat)
    (d1 : α) (d2 : β) (h1 : j < l1.length) (h2 : j < l2.length) :
    (l1.getD j d1, l2.getD j d2) ∈ l1.zip l2 := by
  induction l1 generalizing l2 j with
  | nil => simp at h1
  | cons a t ih =>
    cases l2 with
    | nil => simp at h2
    | cons b u =>
      cases j with
      | zero => simp [List.zip_cons_cons]
      | succ j2 =>
        have := ih u j2 (by simpa using h1) (by simpa using h2)
        simp only [List.getD_cons_succ, List.zip_cons_cons]
        exact List.mem_cons_of_mem _ this

theorem firstIdx_lt (cols : List String) (c : String) (i : Nat)
    (h : firstIdx cols c = some i) : i < cols.length := by
  induction cols generalizing i with
  | nil => simp [firstIdx] at h
  | cons c0 rest ih =>
    rw [firstIdx] at h
    by_cases h0 : c0 = c
    · rw [if_pos h0] at h
      cases h
      simp
    · rw [if_neg h0] at h
      cases hfi : firstIdx rest c with
      | none => rw [hfi] at h; simp at h
      | some i2 =>
        rw [hfi] at h
        simp only [Option.map_some'] at h
        cases h
        have := ih i2 hfi
        simp
        omega

theorem firstIdx_getD (cols : List String) (c : String) (i : Nat)
    (h : firstIdx cols c = some i) : cols.getD i "" = c := by
  induction cols generalizing i with
  | nil => simp [firstIdx] at h
  | cons c0 rest ih =>
    rw [firstIdx] at h
    by_cases h0 : c0 = c
    · rw [if_pos h0] at h
      cases h
      simpa using h0
    · rw [if_neg h0] at h
      cases hfi : firstIdx rest c with
      | none => rw [hfi] at h; simp at h
      | some i2 =>
        rw [hfi] at h
        simp only [Option.map_some'] at h
        cases h
        simpa using ih i2 hfi

theorem firstIdx_append_some (l1 l2 : List String) (c : String) (i : Nat)
    (h : firstIdx l1 c = some i) : firstIdx (l1 ++ l2) c = some i := by
  induction l1 generalizing i with
  | nil => simp [firstIdx] at h
  | cons c0 rest ih =>
    rw [firstIdx] at h
    rw [List.cons_append, firstIdx]
    by_cases h0 : c0 = c
    · rw [if_pos h0] at h ⊢
      exact h
    · rw [if_neg h0] at h ⊢
      cases hfi : firstIdx rest c with
      | none => rw [hfi] at h; simp at h
      | some i2 =>
        rw [hfi] at h
        rw [ih i2 hfi]
        exact h

theorem firstIdx_append_none (l1 l2 : List String) (c : String)
    (h : firstIdx l1 c = none) :
    firstIdx (l1 ++ l2) c = (firstIdx l2 c).map (· + l1.length) := by
  induction l1 with
  | nil => simp [firstIdx]
  | cons c0 rest ih =>
    rw [firstIdx] at h
    rw [List.cons_append, firstIdx]
    by_cases h0 : c0 = c
    · rw [if_pos h0] at h
      simp at h
    · rw [if_neg h0] at h
      have h2 : firstIdx rest c = none := by
        cases hfi : firstIdx rest c with
        | none => rfl
        | some i2 => rw [hfi] at h; simp at h
      rw [if_neg h0, ih h2]
      cases firstIdx l2 c <;> simp
      omega

theorem contains_eq_firstIdx (l : List String) (c : String) :
    l.contains c = (firstIdx l c).isSome := by
  induction l with
  | nil => rfl
  | cons c0 rest ih =>
    rw [firstIdx]
    by_cases h0 : c0 = c
    · rw [if_pos h0]
      have hbc : (c == c0) = true := by simp [h0]
      simp [List.contains_cons, hbc]
      exact Or.inl h0.symm
    · rw [if_neg h0]
      have hbc : (c == c0) = false := by
        simp only [beq_eq_false_iff_ne, ne_eq]
        exact fun he => h0 he.symm
      rw [List.contains_cons, hbc, Bool.false_or, ih]
      cases firstIdx rest c <;> rfl

/-! ## Lemmas about the effectful list combinators -/

theorem mapOpt_eq_some {α β : Type} (f : α → Option β) (dflt : β) :
    ∀ (l : List α) (l2 : List β), mapOpt f l = some l2 →
      (∀ a ∈ l, (f a).isSome = true) ∧ l2 = l.map (fun a => (f a).getD dflt) := by
  intro l
  induction l with
  | nil =>
    intro l2 h
    cases h
    exact ⟨by simp, rfl⟩
  | cons a t ih =>
    intro l2 h
    rw [mapOpt] at h
    cases hfa : f a with
    | none => rw [hfa] at h; simp at h
    | some b =>
      rw [hfa] at h
      cases hmt : mapOpt f t with
      | none => rw [hmt] at h; simp at h
      | some bs =>
        rw [hmt] at h
        simp only [Option.bind_some, Option.some.injEq] at h
        obtain ⟨hall, heq⟩ := ih bs hmt
        constructor
        · intro x hx
          rcases List.mem_cons.1 hx with rfl | hx2
          · simp [hfa]
          · exact hall x hx2
        · rw [← h]
          simp [hfa, heq]

theorem mapValuesE_ok (f : Value → Except PyErr Value) :
    ∀ (l l2 : List Value), mapValuesE f l = .ok l2 →
      l2 = l.map (fun v => match f v with | .ok w => w | .error _ => v) := by
  intro l
  induction l with
  | nil => intro l2 h; cases h; rfl
  | cons a t ih =>
    intro l2 h
    rw [mapValuesE] at h
    cases hfa : f a with
    | error e => rw [hfa] at h; simp [Except.bind] at h
    | ok w =>
      rw [hfa] at h
      cases hmt : mapValuesE f t with
      | error e => rw [hmt] at h; simp [Except.bind] at h
      | ok ws =>
        rw [hmt] at h
        simp only [Except.bind, Except.ok.injEq, pure] at h
        rw [← h]
        simp [hfa, ih ws hmt]

theorem filterE_ok_sub (p : List Value → Except String Bool) :
    ∀ (l l2 : List (List Value)), filterE p l = .ok l2 →
      ∀ r ∈ l2, r ∈ l := by
  intro l
  induction l with
  | nil => intro l2 h; cases h; simp
  | cons a t ih =>
    intro l2 h
    rw [filterE] at h
    cases hpa : p a with
    | error e => rw [hpa] at h; simp [Except.bind] at h
    | ok b =>
      rw [hpa] at h
      cases hft : filterE p t with
      | error e => rw [hft] at h; simp [Except.bind] at h
      | ok u =>
        rw [hft] at h
        simp only [Except.bind, Except.ok.injEq, pure] at h
        intro r hr
        rw [← h] at hr
        cases b with
        | true =>
          rw [if_pos rfl] at hr
          rcases List.mem_cons.1 hr with rfl | hr2
          · exact List.mem_cons_self _ _
          · exact List.mem_cons_of_mem _ (ih u hft r hr2)
        | false =>
          rw [if_neg Bool.false_ne_true] at hr
          exact List.mem_cons_of_mem _ (ih u hft r hr)

theorem dedupRows_sub :
    ∀ (l seen : List (List Value)) (r : List Value),
      r ∈ dedupRows seen l → r ∈ l := by
  intro l
  induction l with
  | nil => intro seen r h; simp [dedupRows] at h
  | cons a t ih =>
    intro seen r h
    rw [dedupRows] at h
    by_cases ha : a ∈ seen
    · rw [if_pos ha] at h
      exact List.mem_cons_of_mem _ (ih seen r h)
    · rw [if_neg ha] at h
      rcases List.mem_cons.1 h with rfl | h2
      · exact List.mem_cons_self _ _
      · exact List.mem_cons_of_mem _ (ih _ r h2)

theorem aggRows_shape (keyOf amtOf : List Value → Value)
    (rows : List (List Value)) :
    ∀ (ks : List Value) (out : List (List Value)),
      aggRows keyOf amtOf rows ks = .ok out →
      ∀ r ∈ out, ∃ k s, r = [k, s] := by
  intro ks
  induction ks with
  | nil => intro out h; cases h; simp
  | cons k ks2 ih =>
    intro out h
    rw [aggRows] at h
    cases hs : sumValues ((rows.filter (fun r => keyOf r = k)).map amtOf) with
    | error e => rw [hs] at h; simp [Except.bind] at h
    | ok s =>
      rw [hs] at h
      cases hrest : aggRows keyOf amtOf rows ks2 with
      | error e => rw [hrest] at h; simp [Except.bind] at h
      | ok rest =>
        rw [hrest] at h
        simp only [Except.bind, Except.ok.injEq, pure] at h
        intro r hr
        rw [← h] at hr
        rcases List.mem_cons.1 hr with rfl | hr2
        · exact ⟨k, s, rfl⟩
        · exact ih rest hrest r hr2

/-! ## Frame shape through the stages -/

theorem applyFlags_length : ∀ (bs : List Bool) (l : List Value),
    (applyFlags bs l).length = l.length := by
  intro bs
  induction bs with
  | nil => intro l; rfl
  | cons b bs ih =>
    intro l
    cases l with
    | nil => rfl
    | cons v vs => simp [applyFlags, ih]

theorem normRow_length (flags : List Bool) (r : List Value) :
    (normRow flags r).length = r.length := by
  simp [normRow, applyFlags_length]

theorem clean_wf (df : Batch) (h : df.WF) : (clean_data df).WF := by
  intro r hr
  exact h r (List.mem_filter.1 hr).1

theorem normalize_wf (df : Batch) (h : df.WF) : (normalize_data df).WF := by
  intro r hr
  simp only [normalize_data, List.mem_map] at hr
  obtain ⟨r0, hr0, rfl⟩ := hr
  rw [normRow_length]
  exact h r0 hr0

theorem aggregate_ok_wf (df df2 : Batch) (h : df.WF)
    (hok : aggregate_data df = .ok df2) : df2.WF := by
  unfold aggregate_data at hok
  by_cases hc : (df.cols.contains "category" && df.cols.contains "amount") = true
  · rw [if_pos hc] at hok
    cases hagg : aggRows (fun r => rowVal df.cols r "category")
        (fun r => rowVal df.cols r "amount") df.rows (aggKeys df) with
    | error e => rw [hagg] at hok; exact Except.noConfusion hok
    | ok rows =>
      rw [hagg] at hok
      cases hok
      intro r hr
      obtain ⟨k, s, rfl⟩ := aggRows_shape _ _ _ _ _ hagg r hr
      rfl
  · rw [if_neg hc] at hok
    cases hok
    exact h

theorem filter_wf (df : Batch) (h : df.WF) : (filter_data df).WF := by
  unfold filter_data
  by_cases hc : df.cols.contains "status" = true
  · rw [if_pos hc]
    intro r hr
    exact h r (List.mem_filter.1 hr).1
  · rw [if_neg hc]
    exact h

theorem setColIdx_maps (rows : List (List Value)) (j : Nat) (g : Value → Value) :
    setColIdx rows j ((getColVals rows j).map g) =
      rows.map (fun r => r.set j (g (r.getD j .null))) := by
  unfold setColIdx getColVals
  rw [List.map_map]
  exact zipWith_map_self _ _ rows

theorem convPass1_lengths (n : Nat) :
    ∀ (js : List Nat) (rows rows2 : List (List Value)),
      convPass1 rows js = .ok rows2 →
      (∀ r ∈ rows, r.length = n) → ∀ r2 ∈ rows2, r2.length = n := by
  intro js
  induction js with
  | nil => intro rows rows2 h hlen; cases h; exact hlen
  | cons j js2 ih =>
    intro rows rows2 h hlen
    rw [convPass1] at h
    by_cases hstr : (getColVals rows j).any Value.isStr = true
    · rw [if_pos hstr] at h
      split at h
      next vs hmv =>
        rw [mapValuesE_ok _ _ _ hmv, setColIdx_maps] at h
        refine ih _ _ h ?_
        intro r hr
        obtain ⟨r0, hr0, rfl⟩ := List.mem_map.1 hr
        rw [List.length_set]
        exact hlen r0 hr0
      next hmv => exact ih rows rows2 h hlen
      next hmv => exact Except.noConfusion h
    · rw [if_neg hstr] at h
      exact ih rows rows2 h hlen

theorem convPass2_lengths (cols : List String) (n : Nat) :
    ∀ (js : List Nat) (rows : List (List Value)),
      (∀ r ∈ rows, r.length = n) → ∀ r2 ∈ convPass2 cols rows js, r2.length = n := by
  intro js
  induction js with
  | nil => intro rows h; exact h
  | cons j js2 ih =>
    intro rows hlen
    rw [convPass2]
    by_cases hdn : isDateName (cols.getD j "") = true
    · rw [if_pos hdn, setColIdx_maps]
      refine ih _ ?_
      intro r hr
      obtain ⟨r0, hr0, rfl⟩ := List.mem_map.1 hr
      rw [List.length_set]
      exact hlen r0 hr0
    · rw [if_neg hdn]
      exact ih rows hlen

theorem toDatetimeValue_dateLike (v : Value) :
    (toDatetimeValue v).isDateLike = true := by
  cases v with
  | null => rfl
  | natt => rfl
  | num q => rfl
  | date t => rfl
  | str s =>
    rw [toDatetimeValue]
    cases parseDateString s <;> rfl

theorem convPass2_keeps (cols : List String) (j : Nat) :
    ∀ (js : List Nat) (rows : List (List Value)),
      (∀ r ∈ rows, j < r.length → (r.getD j .null).isDateLike = true) →
      ∀ r2 ∈ convPass2 cols rows js, j < r2.length →
        (r2.getD j .null).isDateLike = true := by
  intro js
  induction js with
  | nil => intro rows h; exact h
  | cons j2 js2 ih =>
    intro rows hinv
    rw [convPass2]
    by_cases hdn : isDateName (cols.getD j2 "") = true
    · rw [if_pos hdn, setColIdx_maps]
      refine ih _ ?_
      intro r hr hjr
      obtain ⟨r0, hr0, rfl⟩ := List.mem_map.1 hr
      rw [List.length_set] at hjr
      by_cases hjj : j2 = j
      · subst hjj
        rw [getD_set_self _ _ _ _ hjr]
        exact toDatetimeValue_dateLike _
      · rw [getD_set_ne _ _ _ _ _ hjj]
        exact hinv r0 hr0 hjr
    · rw [if_neg hdn]
      exact ih rows hinv

theorem convPass2_dateLike (cols : List String) (j : Nat)
    (hname : isDateName (cols.getD j "") = true) :
    ∀ (js : List Nat) (rows : List (List Value)), j ∈ js →
      ∀ r2 ∈ convPass2 cols rows js, j < r2.length →
        (r2.getD j .null).isDateLike = true := by
  intro js
  induction js with
  | nil => intro rows hj; simp at hj
  | cons j2 js2 ih =>
    intro rows hj
    rw [convPass2]
    rcases List.mem_cons.1 hj with rfl | hj2
    · rw [if_pos hname, setColIdx_maps]
      apply convPass2_keeps
      intro r hr hjr
      obtain ⟨r0, hr0, rfl⟩ := List.mem_map.1 hr
      rw [List.length_set] at hjr
      rw [getD_set_self _ _ _ _ hjr]
      exact toDatetimeValue_dateLike _
    · by_cases hdn : isDateName (cols.getD j2 "") = true
      · rw [if_pos hdn, setColIdx_maps]
        exact ih _ hj2
      · rw [if_neg hdn]
        exact ih rows hj2

theorem convert_ok_props (df df2 : Batch)
    (hok : convert_data_types df = .ok df2) :
    df2.cols = df.cols ∧
    (∀ n, (∀ r ∈ df.rows, r.length = n) → ∀ r2 ∈ df2.rows, r2.length = n) ∧
    (∀ j, j < df.cols.length → isDateName (df.cols.getD j "") = true →
      ∀ r2 ∈ df2.rows, j < r2.length → (r2.getD j .null).isDateLike = true) := by
  unfold convert_data_types at hok
  cases hp1 : convPass1 df.rows (List.range df.cols.length) with
  | error e => rw [hp1] at hok; exact Except.noConfusion hok
  | ok rows1 =>
    rw [hp1] at hok
    cases hok
    refine ⟨rfl, ?_, ?_⟩
    · intro n hn
      exact convPass2_lengths _ n _ _ (convPass1_lengths n _ _ _ hp1 hn)
    · intro j hj hdn
      exact convPass2_dateLike _ j hdn _ _ (List.mem_range.2 hj)

theorem isDateName_renameCol (c : String) :
    isDateName (renameCol c) = isDateName c := by
  by_cases h : c = "old_column_name"
  · rw [renameCol, if_pos h, h]
    decide
  · rw [renameCol, if_neg h]

theorem mapFields_cols_getD (cols : List String) (j : Nat) :
    (cols.map renameCol).getD j "" = renameCol (cols.getD j "") :=
  getD_map_comm renameCol cols j ""

theorem jsonDumpValue_dateLike_none (v : Value) (h : v.isDateLike = true) :
    jsonDumpValue v = none := by
  cases v with
  | date t => rfl
  | natt => rfl
  | null => simp [Value.isDateLike] at h
  | str s => simp [Value.isDateLike] at h
  | num q => simp [Value.isDateLike] at h

theorem jsonDumpPairsAux_dateLike_none :
    ∀ (m : List (String × Value)) (p : String × Value), p ∈ m →
      p.2.isDateLike = true → jsonDumpPairsAux m = none := by
  intro m
  induction m with
  | nil => intro p hp; simp at hp
  | cons q rest ih =>
    intro p hp hdl
    rcases List.mem_cons.1 hp with rfl | hp2
    · obtain ⟨c, v⟩ := p
      rw [jsonDumpPairsAux, jsonDumpValue_dateLike_none v hdl]
    · obtain ⟨c, v⟩ := q
      rw [jsonDumpPairsAux, ih p hp2 hdl]
      cases jsonDumpValue v <;> rfl

theorem jsonDumpPairs_dateLike_none (m : List (String × Value))
    (p : String × Value) (hp : p ∈ m) (hdl : p.2.isDateLike = true) :
    jsonDumpPairs m = none := by
  rw [jsonDumpPairs, jsonDumpPairsAux_dateLike_none m p hp hdl]

/-! ## The metadata-attachment machinery -/

theorem setCol_map_self (df : Batch) (c : String) (g : List Value → Value) :
    setCol df c (df.rows.map g) =
      ⟨setCellCols df.cols c,
       df.rows.map (fun r => setCell df.cols c r (g r))⟩ := by
  cases hfi : firstIdx df.cols c <;>
    simp [setCol, setCellCols, setCell, hfi, zipWith_map_self]

theorem setCell_length (cols : List String) (c : String) (r : List Value)
    (v : Value) (hlen : r.length = cols.length) :
    (setCell cols c r v).length = (setCellCols cols c).length := by
  unfold setCell setCellCols
  cases hfi : firstIdx cols c with
  | some i => simp [List.length_set, hlen]
  | none => simp [hlen]

theorem rowVal_setCell_self (cols : List String) (c : String) (r : List Value)
    (v : Value) (hlen : r.length = cols.length) :
    rowVal (setCellCols cols c) (setCell cols c r v) c = v := by
  unfold setCell setCellCols rowVal
  cases hfi : firstIdx cols c with
  | some i =>
    simp only [hfi]
    exact getD_set_self r i v .null (hlen ▸ firstIdx_lt cols c i hfi)
  | none =>
    simp only [hfi]
    have he : firstIdx (cols ++ [c]) c = some cols.length := by
      rw [firstIdx_append_none cols [c] c hfi]
      have h1 : firstIdx [c] c = some 0 := by
        rw [firstIdx, if_pos rfl]
      rw [h1]
      simp
    simp only [he]
    rw [← hlen]
    exact getD_append_len r v .null

theorem rowVal_setCell_ne (cols : List String) (c c2 : String)
    (r : List Value) (v : Value) (hne : c2 ≠ c)
    (hlen : r.length = cols.length) :
    rowVal (setCellCols cols c) (setCell cols c r v) c2 = rowVal cols r c2 := by
  unfold setCell setCellCols rowVal
  cases hfi : firstIdx cols c with
  | some i =>
    simp only [hfi]
    cases hfi2 : firstIdx cols c2 with
    | none => rfl
    | some i2 =>
      simp only [hfi2]
      have hii : i ≠ i2 := by
        intro he
        apply hne
        rw [← firstIdx_getD cols c i hfi, ← firstIdx_getD cols c2 i2 hfi2, he]
      exact getD_set_ne r i i2 v .null hii
  | none =>
    simp only [hfi]
    cases hfi2 : firstIdx cols c2 with
    | some i2 =>
      have he : firstIdx (cols ++ [c]) c2 = some i2 :=
        firstIdx_append_some cols [c] c2 i2 hfi2
      simp only [he, hfi2]
      exact getD_append_lt r [v] i2 .null (hlen ▸ firstIdx_lt cols c2 i2 hfi2)
    | none =>
      have he : firstIdx (cols ++ [c]) c2 = none := by
        rw [firstIdx_append_none cols [c] c2 hfi2]
        have h1 : firstIdx [c] c2 = none := by
          rw [firstIdx, if_neg (fun hh => hne hh.symm)]
          rfl
        rw [h1]
        rfl
      simp only [he, hfi2]

theorem setCellCols_contains_ne (cols : List String) (c c2 : String)
    (hne : c2 ≠ c) : (setCellCols cols c).contains c2 = cols.contains c2 := by
  unfold setCellCols
  cases hfi : firstIdx cols c with
  | some i => simp only [hfi]
  | none =>
    simp only [hfi]
    rw [contains_eq_firstIdx, contains_eq_firstIdx]
    cases hfi2 : firstIdx cols c2 with
    | some i2 => rw [firstIdx_append_some cols [c] c2 i2 hfi2]
    | none =>
      rw [firstIdx_append_none cols [c] c2 hfi2]
      have h1 : firstIdx [c] c2 = none := by
        rw [firstIdx, if_neg (fun hh => hne hh.symm)]
        rfl
      rw [h1]
      rfl

theorem validate_ok_sub (df df2 : Batch) (h : validate_data df = .ok df2) :
    df2.cols = df.cols ∧ ∀ r ∈ df2.rows, r ∈ df.rows := by
  unfold validate_data at h
  by_cases hc : df.cols.contains "amount" = true
  · rw [if_pos hc] at h
    split at h
    next e heq => exact Except.noConfusion h
    next rows hf =>
      cases h
      exact ⟨rfl, filterE_ok_sub _ _ _ hf⟩
  · rw [if_neg hc] at h
    cases h
    exact ⟨rfl, fun r hr => hr⟩

theorem rowPayload_isSome (cols : List String) (r : List Value)
    (h : (rowPayload cols r).isSome = true) :
    ∃ cs, jsonDumpPairs (cols.zip r) = some cs ∧
      (rowPayload cols r).getD "" = (⟨escQ cs⟩ : String) := by
  unfold rowPayload at h ⊢
  cases hd : jsonDumpPairs (cols.zip r) with
  | none => rw [hd] at h; simp at h
  | some cs =>
    exact ⟨cs, rfl, rfl⟩

theorem rowPayload_none_of_dateLike (cols : List String) (r : List Value)
    (j : Nat) (hj : j < cols.length) (hjr : j < r.length)
    (hdl : (r.getD j .null).isDateLike = true) :
    rowPayload cols r = none := by
  unfold rowPayload
  rw [jsonDumpPairs_dateLike_none (cols.zip r)
    (cols.getD j "", r.getD j .null) (mem_zip_getD cols r j "" .null hj hjr) hdl]
  rfl

theorem c10_filter_normalized_status_witness :
    rowVal c10Batch.cols (normRow (normFlags c10Batch) [Value.str "Active"])
      "status" = .str "active" := by
  have h := (c10_filter_normalized_status c10Batch (by decide)).2
    [Value.str "Active"] (by simp [c10Batch]) "Active" (by decide)
  exact h.2 (by decide)

theorem setCol_rows_nil (d : Batch) (c : String) (vals : List Value)
    (h : d.rows = []) : (setCol d c vals).rows = [] := by
  unfold setCol
  split <;> simp [h]

theorem attachMetadata_cols (now : ℤ) (t : String) (df : Batch)
    (payloads : List String) :
    (attachMetadata now t df payloads).cols = ["data", "date_time", "tag"] := rfl

theorem attachMetadata_rows_nil (now : ℤ) (t : String) (df : Batch)
    (payloads : List String) (h : df.rows = []) :
    (attachMetadata now t df payloads).rows = [] := by
  unfold attachMetadata selectCols
  dsimp only
  have h2 := setCol_rows_nil df "data" (payloads.map Value.str) h
  have h3 := setCol_rows_nil _ "tag"
    ((setCol df "data" (payloads.map Value.str)).rows.map (fun _ => Value.str t)) h2
  split
  · rw [h3]
    rfl
  · rw [setCol_rows_nil _ "date_time" _ h3]
    rfl

theorem attachMetadata_spec (now : ℤ) (t : String) (df : Batch)
    (hWF : df.WF) (hdtc : df.cols.contains "date_time" = false) :
    attachMetadata now t df
        (df.rows.map (fun r => (rowPayload df.cols r).getD "")) =
      ⟨["data", "date_time", "tag"],
       df.rows.map (fun r =>
         [Value.str ((rowPayload df.cols r).getD ""), Value.date now,
          Value.str t])⟩ := by
  unfold attachMetadata
  dsimp only
  rw [List.map_map]
  rw [setCol_map_self df "data" (Value.str ∘ fun r => (rowPayload df.cols r).getD "")]
  rw [setCol_map_self
    (⟨setCellCols df.cols "data",
      df.rows.map (fun r => setCell df.cols "data" r
        ((Value.str ∘ fun r2 => (rowPayload df.cols r2).getD "") r))⟩ : Batch)
    "tag" (fun _ => Value.str t)]
  have hc2 : (setCellCols (setCellCols df.cols "data") "tag").contains
      "date_time" = false := by
    rw [setCellCols_contains_ne _ _ _ (by decide),
      setCellCols_contains_ne _ _ _ (by decide)]
    exact hdtc
  rw [if_neg (by dsimp only; rw [hc2]; exact Bool.false_ne_true)]
  rw [setCol_map_self]
  unfold selectCols
  dsimp only
  rw [List.map_map, List.map_map, List.map_map]
  rw [Batch.mk.injEq]
  refine ⟨rfl, ?_⟩
  apply List.map_congr_left
  intro r hr
  dsimp only [Function.comp]
  simp only [List.map_cons, List.map_nil]
  have hlen1 : (setCell df.cols "data" r
      (Value.str ((rowPayload df.cols r).getD ""))).length =
      (setCellCols df.cols "data").length :=
    setCell_length _ _ _ _ (hWF r hr)
  have hlen2 : (setCell (setCellCols df.cols "data") "tag"
      (setCell df.cols "data" r (Value.str ((rowPayload df.cols r).getD "")))
      (Value.str t)).length =
      (setCellCols (setCellCols df.cols "data") "tag").length :=
    setCell_length _ _ _ _ hlen1
  rw [rowVal_setCell_ne _ "date_time" "data" _ _ (by decide) hlen2]
  rw [rowVal_setCell_ne _ "tag" "data" _ _ (by decide) hlen1]
  rw [rowVal_setCell_self _ _ _ _ (hWF r hr)]
  rw [rowVal_setCell_self _ _ _ _ hlen2]
  rw [rowVal_setCell_ne _ "date_time" "tag" _ _ (by decide) hlen2]
  rw [rowVal_setCell_self _ _ _ _ hlen1]


theorem transform_ok_shape (now : ℤ) (df : Batch) (t : String) (out : Batch)
    (hWF : df.WF) (htr : transform_data now df t = .ok out) :
    out.cols = ["data", "date_time", "tag"] ∧
    ∀ r ∈ out.rows, ∃ (m : List (String × Value)) (cs : List Char),
      jsonDumpPairs m = some cs ∧
      r = [.str ⟨escQ cs⟩, .date now, .str t] := by
  unfold transform_data at htr
  split at htr
  next e hagg => exact Except.noConfusion htr
  next dfa hagg =>
  split at htr
  next e hconv => exact Except.noConfusion htr
  next dfc hconv =>
  split at htr
  next e hval => exact Except.noConfusion htr
  next dfv hval =>
  split at htr
  next hmo => exact Except.noConfusion htr
  next payloads hmo =>
  cases htr
  have hWa : dfa.WF :=
    aggregate_ok_wf _ dfa (normalize_wf _ (clean_wf df hWF)) hagg
  obtain ⟨hccols, hclens, hcdate⟩ := convert_ok_props _ dfc hconv
  have hWc : dfc.WF := by
    intro r hr
    rw [hccols]
    exact hclens (filter_data dfa).cols.length (filter_wf dfa hWa) r hr
  obtain ⟨hvcols, hvsub⟩ := validate_ok_sub _ dfv hval
  have hWv : dfv.WF := by
    intro r hr
    rw [hvcols]
    show r.length = (dfc.cols.map renameCol).length
    rw [List.length_map]
    exact hWc r (dedupRows_sub _ _ _ (hvsub r hr))
  have hvdate : ∀ j, j < dfv.cols.length →
      isDateName (dfv.cols.getD j "") = true →
      ∀ r ∈ dfv.rows, j < r.length → (r.getD j .null).isDateLike = true := by
    intro j hj hdn r hr hjr
    rw [hvcols] at hj hdn
    have hj2 : j < dfc.cols.length := by
      have h2 : j < (dfc.cols.map renameCol).length := hj
      simpa using h2
    have hdn2 : isDateName (dfc.cols.getD j "") = true := by
      have h2 : isDateName ((dfc.cols.map renameCol).getD j "") = true := hdn
      rwa [mapFields_cols_getD, isDateName_renameCol] at h2
    have hj3 : j < (filter_data dfa).cols.length := by
      rw [hccols] at hj2
      exact hj2
    have hdn3 : isDateName ((filter_data dfa).cols.getD j "") = true := by
      rw [hccols] at hdn2
      exact hdn2
    exact hcdate j hj3 hdn3 r (dedupRows_sub _ _ _ (hvsub r hr)) hjr
  by_cases hdtc : dfv.cols.contains "date_time" = true
  · cases hrows : dfv.rows with
    | cons r0 rest =>
      exfalso
      have hiss := contains_eq_firstIdx dfv.cols "date_time"
      rw [hdtc] at hiss
      cases hfij : firstIdx dfv.cols "date_time" with
      | none => rw [hfij] at hiss; simp at hiss
      | some j =>
        have hj := firstIdx_lt _ _ _ hfij
        have hname : isDateName (dfv.cols.getD j "") = true := by
          rw [firstIdx_getD _ _ _ hfij]
          decide
        have hr0 : r0 ∈ dfv.rows := by
          rw [hrows]
          exact List.mem_cons_self _ _
        have hlen0 : r0.length = dfv.cols.length := hWv r0 hr0
        have hdl := hvdate j hj hname r0 hr0 (by rw [hlen0]; exact hj)
        have hnone := rowPayload_none_of_dateLike dfv.cols r0 j hj
          (by rw [hlen0]; exact hj) hdl
        have hms := (mapOpt_eq_some _ "" dfv.rows payloads hmo).1 r0 hr0
        rw [hnone] at hms
        simp at hms
    | nil =>
      refine ⟨rfl, ?_⟩
      intro r hr
      rw [attachMetadata_rows_nil now t dfv payloads hrows] at hr
      exact absurd hr (List.not_mem_nil r)
  · have hdtcf : dfv.cols.contains "date_time" = false := by
      cases hcc : dfv.cols.contains "date_time"
      · rfl
      · exact absurd hcc hdtc
    obtain ⟨hall, hpayeq⟩ :=
      mapOpt_eq_some (fun r => rowPayload dfv.cols r) "" dfv.rows payloads hmo
    subst hpayeq
    rw [attachMetadata_spec now t dfv hWv hdtcf]
    refine ⟨rfl, ?_⟩
    intro r hr
    simp only [List.mem_map] at hr
    obtain ⟨r0, hr0, rfl⟩ := hr
    obtain ⟨cs, hcs, hgd⟩ := rowPayload_isSome dfv.cols r0 (hall r0 hr0)
    exact ⟨dfv.cols.zip r0, cs, hcs, by rw [hgd]⟩

/-- Claim C2: for every rectangular input batch and table name, a successful
transform returns a batch with exactly the three columns data, date_time and
tag, and every record holds the single-quote-escaped serialization of some
field/value map as its payload, a non-null capture timestamp, and a non-null
tag equal to the table name. -/
theorem c2_transform_output_invariant (now : ℤ) (df : Batch) (t : String)
    (out : Batch) (hWF : df.WF) (htr : transform_data now df t = .ok out) :
    out.cols = ["data", "date_time", "tag"] ∧
    ∀ r ∈ out.rows, ∃ (m : List (String × Value)) (cs : List Char),
      jsonDumpPairs m = some cs ∧
      r = [.str (escQstr ⟨cs⟩), .date now, .str t] ∧
      r.getD 2 .null = .str t ∧ (r.getD 1 .null).isNull = false := by
  obtain ⟨hcols, hrows⟩ := transform_ok_shape now df t out hWF htr
  refine ⟨hcols, ?_⟩
  intro r hr
  obtain ⟨m, cs, hd, hre⟩ := hrows r hr
  refine ⟨m, cs, hd, ?_, ?_, ?_⟩
  · rw [hre]
    rfl
  · rw [hre]
    rfl
  · rw [hre]
    rfl

theorem c2_transform_output_invariant_witness :
    (⟨["data", "date_time", "tag"],
      [[.str "\x7b\"a\": \"x\"\x7d", .date 0, .str "t1"]]⟩ : Batch).cols =
        ["data", "date_time", "tag"] ∧
    ∀ r ∈ (⟨["data", "date_time", "tag"],
      [[.str "\x7b\"a\": \"x\"\x7d", .date 0, .str "t1"]]⟩ : Batch).rows,
      ∃ (m : List (String × Value)) (cs : List Char),
        jsonDumpPairs m = some cs ∧
        r = [.str (escQstr ⟨cs⟩), .date 0, .str "t1"] ∧
        r.getD 2 .null = .str "t1" ∧ (r.getD 1 .null).isNull = false :=
  c2_transform_output_invariant 0 c2Batch "t1" _ (by decide) rfl

theorem load_ok_spec (sink sink2 : List SinkRow) (df : Batch)
    (h : load_data_to_ClickHouse sink df = .ok sink2) :
    sink2 = sink ++ df.rows ∧ df.rows ≠ [] := by
  unfold load_data_to_ClickHouse at h
  by_cases he : df.rows.isEmpty = true
  · rw [if_pos he] at h
    exact Except.noConfusion h
  · rw [if_neg he] at h
    cases h
    refine ⟨rfl, ?_⟩
    intro hemp
    rw [hemp] at he
    exact he rfl

theorem countTag_append (s1 s2 : List SinkRow) (tag : String) :
    countTag (s1 ++ s2) tag = countTag s1 tag + countTag s2 tag :=
  List.countP_append _ _ _

theorem countTag_pos_iff (sink : List SinkRow) (tag : String) :
    0 < countTag sink tag ↔ ∃ r ∈ sink, tagOfRow r = .str tag := by
  unfold countTag
  rw [List.countP_pos_iff]
  simp

theorem countTag_eq_length (rows : List SinkRow) (t : String)
    (h : ∀ r ∈ rows, tagOfRow r = .str t) :
    countTag rows t = rows.length := by
  unfold countTag
  rw [List.countP_eq_length]
  intro a ha
  simp [h a ha]

theorem check_true_iff (sink : List SinkRow) (tbl tag : String) :
    check_existing_records sink tbl tag = true ↔ 0 < countTag sink tag := by
  unfold check_existing_records
  simp

theorem pb_spec (now : ℤ) (t : String) :
    ∀ (bs : List Batch) (sink : List SinkRow), (∀ b ∈ bs, b.WF) →
      ∃ new, (processBatches now t sink bs).1 = sink ++ new ∧
        (∀ r ∈ new, tagOfRow r = .str t) ∧
        (bs = [] ∨ ((processBatches now t sink bs).2 = true → new ≠ [])) := by
  intro bs
  induction bs with
  | nil =>
    intro sink h
    refine ⟨[], by simp [processBatches], by simp, Or.inl rfl⟩
  | cons b bs2 ih =>
    intro sink hWFb
    cases htr : transform_data now b t with
    | error e =>
      refine ⟨[], by simp [processBatches, htr], by simp, Or.inr ?_⟩
      intro hok
      simp [processBatches, htr] at hok
    | ok tdf =>
      cases hld : load_data_to_ClickHouse sink (remove_duplicates tdf) with
      | error e =>
        refine ⟨[], by simp [processBatches, htr, hld], by simp, Or.inr ?_⟩
        intro hok
        simp [processBatches, htr, hld] at hok
      | ok sink1 =>
        obtain ⟨hs1, hne⟩ := load_ok_spec _ _ _ hld
        obtain ⟨new2, hpb1, htags2, _⟩ :=
          ih sink1 (fun b2 hb2 => hWFb b2 (List.mem_cons_of_mem _ hb2))
        have htagstdf : ∀ r ∈ (remove_duplicates tdf).rows,
            tagOfRow r = .str t := by
          intro r hr
          obtain ⟨-, hrows⟩ := transform_ok_shape now b t tdf
            (hWFb b (List.mem_cons_self _ _)) htr
          obtain ⟨m, cs, -, hre⟩ := hrows r (dedupRows_sub _ _ _ hr)
          rw [hre]
          rfl
        refine ⟨(remove_duplicates tdf).rows ++ new2, ?_, ?_, Or.inr ?_⟩
        · show (processBatches now t sink (b :: bs2)).1 = _
          simp only [processBatches, htr, hld]
          rw [hpb1, hs1, List.append_assoc]
        · intro r hr
          rcases List.mem_append.1 hr with h1 | h2
          · exact htagstdf r h1
          · exact htags2 r h2
        · intro hok hemp
          rcases List.append_eq_nil.1 hemp with ⟨h1, h2⟩
          exact hne h1


theorem pt_run1 (env : Env) (now : ℤ)
    (hWFb : ∀ u b, b ∈ env.batches u → b.WF) :
    ∀ (ts : List String) (sink : List SinkRow) (sk : List String)
      (s2 : List SinkRow) (sk2 : List String),
      processTables env now sink sk ts = (s2, sk2, true) →
      (∀ u, countTag sink u ≤ countTag s2 u) ∧
      (∀ u, countTag sink u < countTag s2 u → u ∈ ts) ∧
      (∀ u ∈ ts, countTag s2 u = 0 → env.batches u = []) := by
  intro ts
  induction ts with
  | nil =>
    intro sink sk s2 sk2 h
    rw [processTables] at h
    cases h
    exact ⟨fun u => le_refl _, fun u h2 => absurd h2 (lt_irrefl _),
      fun u hu => absurd hu (List.not_mem_nil u)⟩
  | cons t0 ts2 ih =>
    intro sink sk s2 sk2 h
    rw [processTables] at h
    by_cases hchk : check_existing_records sink "grupox" t0 = true
    · rw [if_pos hchk] at h
      obtain ⟨hmono, hmem, hbat⟩ := ih _ _ _ _ h
      refine ⟨hmono, fun u hu => List.mem_cons_of_mem _ (hmem u hu), ?_⟩
      intro u hu hc0
      rcases List.mem_cons.1 hu with rfl | hu2
      · exfalso
        have hpos : 0 < countTag sink u := (check_true_iff _ _ _).1 hchk
        have h3 := lt_of_lt_of_le hpos (hmono u)
        rw [hc0] at h3
        exact absurd h3 (lt_irrefl 0)
      · exact hbat u hu2 hc0
    · rw [if_neg hchk] at h
      obtain ⟨new, hnew, htags, hne⟩ :=
        pb_spec now t0 (env.batches t0) sink (fun b hb => hWFb t0 b hb)
      by_cases hp2 : (processBatches now t0 sink (env.batches t0)).2 = true
      · rw [if_pos hp2] at h
        obtain ⟨hmono, hmem, hbat⟩ := ih _ _ _ _ h
        have hmono0 : ∀ u, countTag sink u ≤
            countTag (processBatches now t0 sink (env.batches t0)).1 u := by
          intro u
          rw [hnew, countTag_append]
          exact Nat.le_add_right _ _
        refine ⟨fun u => le_trans (hmono0 u) (hmono u), ?_, ?_⟩
        · intro u hu
          by_cases hu0 : countTag new u = 0
          · have he : countTag (processBatches now t0 sink (env.batches t0)).1 u =
                countTag sink u := by
              rw [hnew, countTag_append, hu0, Nat.add_zero]
            apply List.mem_cons_of_mem
            apply hmem
            rw [he]
            exact hu
          · have : 0 < countTag new u := Nat.pos_of_ne_zero hu0
            obtain ⟨r, hrm, hrt⟩ := (countTag_pos_iff _ _).1 this
            have ht0 := htags r hrm
            rw [ht0] at hrt
            have hut := Value.str.inj hrt
            rw [← hut]
            exact List.mem_cons_self _ _
        · intro u hu hc0
          rcases List.mem_cons.1 hu with rfl | hu2
          · rcases hne with hb0 | hne2
            · exact hb0
            · exfalso
              have hnenil := hne2 hp2
              have hposnew : 0 < countTag new u := by
                rw [countTag_eq_length new u htags]
                cases hn : new with
                | nil => exact absurd hn hnenil
                | cons a l => simp
              have h4 : 0 < countTag (processBatches now u sink (env.batches u)).1 u := by
                rw [hnew, countTag_append]
                omega
              have h5 := lt_of_lt_of_le h4 (hmono u)
              rw [hc0] at h5
              exact absurd h5 (lt_irrefl 0)
          · exact hbat u hu2 hc0
      · rw [if_neg hp2] at h
        simp at h


theorem pt_run2 (env : Env) (now : ℤ) :
    ∀ (ts : List String) (s1 : List SinkRow) (sk : List String),
      (∀ u ∈ ts, countTag s1 u = 0 → env.batches u = []) →
      (processTables env now s1 sk ts).1 = s1 ∧
      (processTables env now s1 sk ts).2.2 = true ∧
      (∀ x ∈ sk, x ∈ (processTables env now s1 sk ts).2.1) ∧
      (∀ u ∈ ts, 0 < countTag s1 u → u ∈ (processTables env now s1 sk ts).2.1) := by
  intro ts
  induction ts with
  | nil =>
    intro s1 sk hz
    exact ⟨rfl, rfl, fun x hx => hx, fun u hu => absurd hu (List.not_mem_nil u)⟩
  | cons t0 ts2 ih =>
    intro s1 sk hz
    by_cases hchk : check_existing_records s1 "grupox" t0 = true
    · have hred : processTables env now s1 sk (t0 :: ts2) =
          processTables env now s1 (sk ++ [t0]) ts2 := by
        rw [processTables, if_pos hchk]
      rw [hred]
      obtain ⟨h1, h2, h3, h4⟩ := ih s1 (sk ++ [t0])
        (fun u hu hcu => hz u (List.mem_cons_of_mem _ hu) hcu)
      refine ⟨h1, h2, ?_, ?_⟩
      · intro x hx
        exact h3 x (List.mem_append.2 (Or.inl hx))
      · intro u hu hpos
        rcases List.mem_cons.1 hu with rfl | hu2
        · exact h3 u (List.mem_append.2 (Or.inr (List.mem_cons_self _ _)))
        · exact h4 u hu2 hpos
    · have hc0 : countTag s1 t0 = 0 := by
        by_contra hne
        exact hchk ((check_true_iff _ _ _).2 (Nat.pos_of_ne_zero hne))
      have hb0 : env.batches t0 = [] := hz t0 (List.mem_cons_self _ _) hc0
      have hred : processTables env now s1 sk (t0 :: ts2) =
          processTables env now s1 sk ts2 := by
        rw [processTables, if_neg hchk, hb0]
        rfl
      rw [hred]
      obtain ⟨h1, h2, h3, h4⟩ := ih s1 sk
        (fun u hu hcu => hz u (List.mem_cons_of_mem _ hu) hcu)
      refine ⟨h1, h2, h3, ?_⟩
      intro u hu hpos
      rcases List.mem_cons.1 hu with rfl | hu2
      · rw [hc0] at hpos
        exact absurd hpos (lt_irrefl 0)
      · exact h4 u hu2 hpos

/-- Claim C3 (code bug): the finally block closes the source (Supabase)
connection on the way to both terminal states, but the ClickHouse client is
never closed on any path — contradicting the function's own docstring (step
5: Fecha as conexoes com o Supabase e ClickHouse) and the spec's guaranteed
release of both handles. -/
theorem c3_connection_close_state :
    ∀ (env : Env) (now : ℤ) (sink0 : List SinkRow),
      (etl_process env now sink0).2.connClosed = true ∧
      (etl_process env now sink0).2.clientClosed = false :=
  fun _ _ _ => ⟨rfl, rfl⟩

/-- Claim C5: alreadyLoaded returns true for a tag exactly when a row with
that tag exists in the sink; immediately after a successful load of a
transformed batch for table t it returns true for t; and when a full run
from an empty sink succeeds and loaded table t, a second run changes
nothing in the sink and skips t. -/
theorem c5_already_loaded_idempotence :
    (∀ (sink : List SinkRow) (tbl tag : String),
      check_existing_records sink tbl tag = true ↔
        ∃ r ∈ sink, tagOfRow r = .str tag) ∧
    (∀ (sink sink2 : List SinkRow) (df : Batch) (t : String),
      (∀ r ∈ df.rows, tagOfRow r = .str t) →
      load_data_to_ClickHouse sink df = .ok sink2 →
      check_existing_records sink2 "grupox" t = true) ∧
    (∀ (env : Env) (now : ℤ) (t : String) (s1 : List SinkRow)
      (sk1 : List String),
      (∀ u b, b ∈ env.batches u → b.WF) →
      run_etl env now [] = (s1, sk1, true) →
      0 < countTag s1 t →
      (run_etl env now s1).1 = s1 ∧ t ∈ (run_etl env now s1).2.1) := by
  refine ⟨?_, ?_, ?_⟩
  · intro sink tbl tag
    rw [check_true_iff]
    exact countTag_pos_iff sink tag
  · intro sink sink2 df t htags hld
    obtain ⟨hs2, hne⟩ := load_ok_spec _ _ _ hld
    rw [check_true_iff, hs2, countTag_append]
    have hp : 0 < countTag df.rows t := by
      rw [countTag_eq_length _ _ htags]
      cases hn : df.rows with
      | nil => exact absurd hn hne
      | cons a l => simp
    omega
  · intro env now t s1 sk1 hWFb hrun1 hpos
    obtain ⟨hmono, hmem, hbat⟩ := pt_run1 env now hWFb env.tables [] [] s1 sk1 hrun1
    obtain ⟨h1, h2, h3, h4⟩ := pt_run2 env now env.tables s1 [] hbat
    have htmem : t ∈ env.tables := by
      apply hmem
      exact hpos
    exact ⟨h1, h4 t htmem hpos⟩

theorem c5_already_loaded_idempotence_witness :
    (run_etl c5Env 0 c5Sink).1 = c5Sink ∧ "t1" ∈ (run_etl c5Env 0 c5Sink).2.1 :=
  c5_already_loaded_idempotence.2.2 c5Env 0 "t1" c5Sink []
    (by
      intro u b hb
      simp only [c5Env] at hb
      split at hb
      · rw [List.mem_singleton] at hb
        rw [hb]
        decide
      · exact absurd hb (List.not_mem_nil b))
    (by decide)
    (by decide)

/-! ## Claim C7: the payload round-trip
Quote-escaping inverse, digit-rendering correctness, and inversion of the
payload serializer by the payload parser. -/

theorem escQ_head_ne_quote :
    ∀ (l : List Char) (d : Char) (bs : List Char),
      escQ l = d :: bs → d ≠ qQuote := by
  intro l d bs h
  cases l with
  | nil => simp [escQ] at h
  | cons c cs =>
    rw [escQ] at h
    by_cases hc : c = qQuote
    · rw [if_pos hc] at h
      have hd : d = bSlash := (List.cons.inj h).1.symm
      rw [hd]
      decide
    · rw [if_neg hc] at h
      have hd : d = c := (List.cons.inj h).1.symm
      rw [hd]
      exact hc

theorem unescQ_escQ : ∀ l : List Char, unescQ (escQ l) = l := by
  intro l
  induction l with
  | nil => rfl
  | cons c cs ih =>
    rw [escQ]
    by_cases hc : c = qQuote
    · rw [if_pos hc]
      rw [unescQ, if_pos ⟨rfl, rfl⟩, ih, hc]
    · rw [if_neg hc]
      cases hE : escQ cs with
      | nil =>
        have hcs : cs = [] := by
          cases cs with
          | nil => rfl
          | cons a b =>
            rw [escQ] at hE
            by_cases ha : a = qQuote
            · rw [if_pos ha] at hE
              exact absurd hE (by simp)
            · rw [if_neg ha] at hE
              exact absurd hE (by simp)
        rw [hcs]
        rfl
      | cons d bs =>
        have hd := escQ_head_ne_quote cs d bs hE
        rw [unescQ, if_neg (fun hand => hd hand.2), ← hE, ih]

theorem digitsToNat_append_one (l : List Char) (c : Char) :
    digitsToNat (l ++ [c]) = digitsToNat l * 10 + digitToNat c := by
  unfold digitsToNat
  rw [List.foldl_append]
  rfl

theorem digits_facts : ∀ (fuel n : Nat), n < fuel →
    (∀ c ∈ natDigitsAux fuel n, c.isDigit = true) ∧
    digitsToNat (natDigitsAux fuel n) = n ∧ natDigitsAux fuel n ≠ [] := by
  intro fuel
  induction fuel with
  | zero => intro n h; exact absurd h (Nat.not_lt_zero n)
  | succ f ih =>
    intro n hn
    rw [natDigitsAux]
    by_cases h10 : n < 10
    · rw [if_pos h10]
      refine ⟨?_, ?_, by simp⟩
      · intro c hc
        rw [List.mem_singleton] at hc
        subst hc
        interval_cases n <;> decide
      · show digitsToNat [Char.ofNat (48 + n)] = n
        interval_cases n <;> decide
    · rw [if_neg h10]
      have hdiv : n / 10 < f := by omega
      obtain ⟨hdigs, hval, hne⟩ := ih (n / 10) hdiv
      have hm : n % 10 < 10 := Nat.mod_lt n (by decide)
      have hdg : digitToNat (Char.ofNat (48 + n % 10)) = n % 10 ∧
          (Char.ofNat (48 + n % 10)).isDigit = true := by
        generalize n % 10 = m at hm
        interval_cases m <;> exact ⟨by decide, by decide⟩
      refine ⟨?_, ?_, by simp⟩
      · intro c hc
        rcases List.mem_append.1 hc with h1 | h2
        · exact hdigs c h1
        · rw [List.mem_singleton] at h2
          subst h2
          exact hdg.2
      · rw [digitsToNat_append_one, hval, hdg.1]
        omega

theorem natDigits_facts (n : Nat) :
    (∀ c ∈ natDigits n, c.isDigit = true) ∧
      digitsToNat (natDigits n) = n ∧ natDigits n ≠ [] :=
  digits_facts (n + 1) n (Nat.lt_succ_self n)

theorem natDigitsAux_length : ∀ (fuel n k : Nat), n < fuel → n < 10 ^ k →
    1 ≤ k → (natDigitsAux fuel n).length ≤ k := by
  intro fuel
  induction fuel with
  | zero => intro n k h; exact absurd h (Nat.not_lt_zero n)
  | succ f ih =>
    intro n k hn hk h1
    rw [natDigitsAux]
    by_cases h10 : n < 10
    · rw [if_pos h10]
      simpa using h1
    · rw [if_neg h10]
      cases k with
      | zero => omega
      | succ k2 =>
        have hk2 : 1 ≤ k2 := by
          by_contra hlt
          have : k2 = 0 := by omega
          rw [this] at hk
          simp at hk
          omega
        have hdivlt : n / 10 < 10 ^ k2 := by
          rw [Nat.div_lt_iff_lt_mul (by omega : 0 < 10)]
          rw [pow_succ] at hk
          exact hk
        have hlen := ih (n / 10) k2 (by omega) hdivlt hk2
        rw [List.length_append]
        simp only [List.length_singleton]
        omega

theorem digitsToNat_replicate_zero :
    ∀ (m : Nat) (ds : List Char),
      digitsToNat (List.replicate m '0' ++ ds) = digitsToNat ds := by
  intro m
  induction m with
  | zero => intro ds; rfl
  | succ m2 ih =>
    intro ds
    rw [List.replicate_succ, List.cons_append]
    show digitsToNat ('0' :: (List.replicate m2 '0' ++ ds)) = _
    unfold digitsToNat
    rw [List.foldl_cons]
    have h0 : (0 * 10 + digitToNat '0') = 0 := by decide
    rw [h0]
    exact ih ds

theorem takeDigits_append (ds rest : List Char)
    (hds : ∀ c ∈ ds, c.isDigit = true)
    (hrest : ∀ c, rest.head? = some c → c.isDigit = false) :
    takeDigits (ds ++ rest) = (ds, rest) := by
  induction ds with
  | nil =>
    cases rest with
    | nil => rfl
    | cons c r =>
      rw [List.nil_append, takeDigits]
      rw [if_neg (by rw [hrest c rfl]; exact Bool.false_ne_true)]
  | cons d ds2 ih =>
    rw [List.cons_append, takeDigits,
      if_pos (hds d (List.mem_cons_self _ _)),
      ih (fun c hc => hds c (List.mem_cons_of_mem _ hc))]

theorem isDigit_ne (c d : Char) (h : c.isDigit = true) (hd : d.isDigit = false) :
    c ≠ d := by
  intro he
  rw [he, hd] at h
  exact Bool.false_ne_true h

theorem parseStrBody_dump :
    ∀ (l rest : List Char),
      parseStrBody (escJ l ++ dQuote :: rest) = some (l, rest) := by
  intro l
  induction l with
  | nil =>
    intro rest
    rw [escJ, List.nil_append]
    cases rest with
    | nil => rfl
    | cons d r2 =>
      rw [parseStrBody, if_pos rfl]
  | cons c cs ih =>
    intro rest
    rw [escJ]
    by_cases hc : c = dQuote ∨ c = bSlash
    · rw [if_pos hc, List.cons_append, List.cons_append, parseStrBody,
        if_neg (by decide : ¬ bSlash = dQuote), if_pos rfl, ih]
      rfl
    · rw [if_neg hc]
      push_neg at hc
      rw [List.cons_append]
      cases hX : escJ cs ++ dQuote :: rest with
      | nil => exact absurd hX (by simp)
      | cons d rest2 =>
        rw [parseStrBody, if_neg hc.1, if_neg hc.2, ← hX, ih]
        rfl

theorem natDigits_head (n : Nat) :
    ∃ d ds, natDigits n = d :: ds ∧ d.isDigit = true := by
  obtain ⟨hdig, hval, hne⟩ := natDigits_facts n
  cases hD : natDigits n with
  | nil => exact absurd hD hne
  | cons d ds =>
    refine ⟨d, ds, rfl, hdig d ?_⟩
    rw [hD]
    exact List.mem_cons_self d ds

theorem parseNumAfterSign_nat (n : Nat) (c : Char) (r2 : List Char)
    (hcd : c.isDigit = false) (hcdot : c ≠ Char.ofNat 46) :
    parseNumAfterSign (natDigits n ++ c :: r2) = some ((n : ℚ), c :: r2) := by
  obtain ⟨hdig, hval, hne⟩ := natDigits_facts n
  cases hD : natDigits n with
  | nil => exact absurd hD hne
  | cons d ds =>
    rw [hD] at hdig hval
    have htk : takeDigits ((d :: ds) ++ c :: r2) = (d :: ds, c :: r2) := by
      apply takeDigits_append _ _ hdig
      intro x hx
      simp at hx
      exact hx ▸ hcd
    unfold parseNumAfterSign
    rw [htk]
    have hdot : ¬ c = '.' := hcdot
    simp only [if_neg hdot, hval]


theorem padZeros_digits (k : Nat) (ds : List Char)
    (hds : ∀ c ∈ ds, c.isDigit = true) :
    ∀ c ∈ padZeros k ds, c.isDigit = true := by
  intro c hc
  unfold padZeros at hc
  rcases List.mem_append.1 hc with h | h
  · rw [List.eq_of_mem_replicate h]
    decide
  · exact hds c h

theorem padZeros_length (k : Nat) (ds : List Char) (h : ds.length ≤ k) :
    (padZeros k ds).length = k := by
  unfold padZeros
  rw [List.length_append, List.length_replicate]
  omega

theorem padZeros_ne_nil (k : Nat) (ds : List Char) (h : ds ≠ []) :
    padZeros k ds ≠ [] := by
  unfold padZeros
  intro hx
  exact h (List.append_eq_nil.1 hx).2

theorem parseNumAfterSign_dec (a k : Nat) (hk : 1 ≤ k) (c : Char) (r2 : List Char)
    (hcd : c.isDigit = false) :
    parseNumAfterSign (natDigits (a / 10 ^ k) ++ '.' ::
        (padZeros k (natDigits (a % 10 ^ k)) ++ c :: r2)) =
      some ((a : ℚ) / (10 : ℚ) ^ k, c :: r2) := by
  obtain ⟨hdig1, hval1, hne1⟩ := natDigits_facts (a / 10 ^ k)
  obtain ⟨hdig2, hval2, hne2⟩ := natDigits_facts (a % 10 ^ k)
  have hpow : 0 < 10 ^ k := Nat.pow_pos (by omega)
  have hmlt : a % 10 ^ k < 10 ^ k := Nat.mod_lt a hpow
  have hlen2 : (natDigits (a % 10 ^ k)).length ≤ k :=
    natDigitsAux_length _ _ k (Nat.lt_succ_self _) hmlt hk
  have hfplen : (padZeros k (natDigits (a % 10 ^ k))).length = k :=
    padZeros_length _ _ hlen2
  have hfpdig := padZeros_digits k _ hdig2
  have hfpne := padZeros_ne_nil k _ hne2
  have hfpval : digitsToNat (padZeros k (natDigits (a % 10 ^ k))) = a % 10 ^ k := by
    unfold padZeros
    rw [digitsToNat_replicate_zero, hval2]
  cases hD1 : natDigits (a / 10 ^ k) with
  | nil => exact absurd hD1 hne1
  | cons d ds =>
    rw [hD1] at hdig1 hval1
    have htk1 : takeDigits ((d :: ds) ++ '.' ::
        (padZeros k (natDigits (a % 10 ^ k)) ++ c :: r2)) =
        (d :: ds, '.' :: (padZeros k (natDigits (a % 10 ^ k)) ++ c :: r2)) := by
      apply takeDigits_append _ _ hdig1
      intro x hx
      simp at hx
      exact hx ▸ (by decide : ('.' : Char).isDigit = false)
    cases hFP : padZeros k (natDigits (a % 10 ^ k)) with
    | nil => exact absurd hFP hfpne
    | cons f1 fs =>
      rw [hFP] at hfpdig hfpval hfplen htk1
      have htk2 : takeDigits ((f1 :: fs) ++ c :: r2) = (f1 :: fs, c :: r2) := by
        apply takeDigits_append _ _ hfpdig
        intro x hx
        simp at hx
        exact hx ▸ hcd
      unfold parseNumAfterSign
      rw [htk1]
      simp only [if_pos (rfl : ('.' : Char) = '.'), htk2, hval1, hfpval, hfplen]
      have hT : ((10 : ℚ)) ^ k ≠ 0 := pow_ne_zero k (by norm_num)
      have hN : (a / 10 ^ k) * 10 ^ k + a % 10 ^ k = a := by
        rw [mul_comm]
        exact Nat.div_add_mod a (10 ^ k)
      have key : ((a / 10 ^ k : ℕ) : ℚ) + ((a % 10 ^ k : ℕ) : ℚ) / (10 : ℚ) ^ k =
          (a : ℚ) / (10 : ℚ) ^ k := by
        rw [eq_div_iff hT, add_mul, div_mul_cancel₀ _ hT]
        exact_mod_cast hN
      rw [key]
      exact if_pos trivial

theorem intCast_div_pow_eq (q : ℚ) (k : Nat) (hdvd : q.den ∣ 10 ^ k) :
    ((q.num * ((10 ^ k / q.den : ℕ) : ℤ) : ℤ) : ℚ) / (10 : ℚ) ^ k = q := by
  have hp : 0 < 10 ^ k := Nat.pow_pos (by omega)
  have hc0 : (10 ^ k / q.den) ≠ 0 := by
    intro h0
    have hmul := Nat.div_mul_cancel hdvd
    rw [h0, zero_mul] at hmul
    rw [← hmul] at hp
    exact lt_irrefl 0 hp
  have hc0Q : (((10 ^ k / q.den : ℕ) : ℚ)) ≠ 0 := Nat.cast_ne_zero.mpr hc0
  have hden : (((10 ^ k / q.den : ℕ) : ℚ)) * (q.den : ℚ) = (10 : ℚ) ^ k := by
    exact_mod_cast Nat.div_mul_cancel hdvd
  rw [Int.cast_mul, Int.cast_natCast, ← hden,
    mul_comm (((10 ^ k / q.den : ℕ) : ℚ)) ((q.den : ℚ)),
    mul_div_mul_right _ _ hc0Q]
  exact Rat.num_div_den q

theorem intChars_parse (i : ℤ) (c : Char) (r2 : List Char)
    (hcd : c.isDigit = false) (hcdot : c ≠ '.') :
    parseNumTok (intChars i ++ c :: r2) = some ((i : ℚ), c :: r2) := by
  unfold intChars
  by_cases hneg : i < 0
  · rw [if_pos hneg, List.cons_append]
    unfold parseNumTok
    simp only [if_pos (rfl : ('-' : Char) = '-'),
      parseNumAfterSign_nat i.natAbs c r2 hcd hcdot, Option.map_some']
    have h2 : ((i.natAbs : ℚ)) = -(i : ℚ) := by
      rw [Int.cast_natAbs, abs_of_nonpos (le_of_lt hneg), Int.cast_neg]
    rw [h2, neg_neg]
    exact if_pos trivial
  · rw [if_neg hneg]
    obtain ⟨d, ds, hD, hDdig⟩ := natDigits_head i.natAbs
    rw [hD, List.cons_append]
    unfold parseNumTok
    show (if d = '-' then Option.map (fun p => (-p.1, p.2))
        (parseNumAfterSign (ds ++ c :: r2))
      else parseNumAfterSign (d :: (ds ++ c :: r2))) = some ((i : ℚ), c :: r2)
    rw [if_neg (isDigit_ne d ('-') hDdig (by decide) : d ≠ '-'),
      ← List.cons_append, ← hD,
      parseNumAfterSign_nat i.natAbs c r2 hcd hcdot]
    have h2 : ((i.natAbs : ℚ)) = (i : ℚ) := by
      rw [Int.cast_natAbs, abs_of_nonneg (le_of_not_lt hneg)]
    rw [h2]

theorem decChars_parse (N : ℤ) (k : Nat) (hk : 1 ≤ k) (c : Char) (r2 : List Char)
    (hcd : c.isDigit = false) :
    parseNumTok (decChars N k ++ c :: r2) =
      some (((N : ℚ)) / (10 : ℚ) ^ k, c :: r2) := by
  simp only [decChars]
  by_cases hneg : N < 0
  · rw [if_pos hneg]
    simp only [List.append_assoc, List.singleton_append, List.cons_append]
    unfold parseNumTok
    show (if ('-' : Char) = '-' then Option.map (fun p => (-p.1, p.2))
        (parseNumAfterSign (natDigits (N.natAbs / 10 ^ k) ++ '.' ::
          (padZeros k (natDigits (N.natAbs % 10 ^ k)) ++ c :: r2)))
      else parseNumAfterSign (('-' : Char) :: (natDigits (N.natAbs / 10 ^ k) ++ '.' ::
        (padZeros k (natDigits (N.natAbs % 10 ^ k)) ++ c :: r2)))) =
      some (((N : ℚ)) / (10 : ℚ) ^ k, c :: r2)
    rw [if_pos (rfl : ('-' : Char) = '-'),
      parseNumAfterSign_dec N.natAbs k hk c r2 hcd, Option.map_some']
    have h2 : ((N.natAbs : ℚ)) = -(N : ℚ) := by
      rw [Int.cast_natAbs, abs_of_nonpos (le_of_lt hneg), Int.cast_neg]
    rw [h2, neg_div, neg_neg]
  · rw [if_neg hneg, List.nil_append]
    obtain ⟨d, ds, hD, hDdig⟩ := natDigits_head (N.natAbs / 10 ^ k)
    rw [hD]
    simp only [List.append_assoc, List.cons_append]
    unfold parseNumTok
    show (if d = '-' then Option.map (fun p => (-p.1, p.2))
        (parseNumAfterSign (ds ++ '.' ::
          (padZeros k (natDigits (N.natAbs % 10 ^ k)) ++ c :: r2)))
      else parseNumAfterSign (d :: (ds ++ '.' ::
        (padZeros k (natDigits (N.natAbs % 10 ^ k)) ++ c :: r2)))) =
      some (((N : ℚ)) / (10 : ℚ) ^ k, c :: r2)
    rw [if_neg (isDigit_ne d ('-') hDdig (by decide) : d ≠ '-'),
      ← List.cons_append, ← hD,
      parseNumAfterSign_dec N.natAbs k hk c r2 hcd]
    have h2 : ((N.natAbs : ℚ)) = (N : ℚ) := by
      rw [Int.cast_natAbs, abs_of_nonneg (le_of_not_lt hneg)]
    rw [h2]

set_option maxRecDepth 4000 in
theorem parseNumTok_dump (q : ℚ) (vd : List Char) (c : Char) (r2 : List Char)
    (hvd : jsonDumpValue (.num q) = some vd) (hcd : c.isDigit = false)
    (hcdot : c ≠ '.') :
    parseNumTok (vd ++ c :: r2) = some (q, c :: r2) := by
  have hvdm : (match tenExp q with
      | none => none
      | some k => if k = 0 then some (intChars q.num)
        else some (decChars (q.num * ((10 ^ k : ℕ) / q.den : ℕ)) k)) =
      some vd := hvd
  cases htE : tenExp q with
  | none =>
    rw [htE] at hvdm
    exact absurd hvdm (by simp)
  | some k =>
    rw [htE] at hvdm
    have hvd3 : (if k = 0 then some (intChars q.num)
        else some (decChars (q.num * ((10 ^ k : ℕ) / q.den : ℕ)) k)) =
        some vd := hvdm
    have htE2 := htE
    unfold tenExp at htE2
    have hdvd : q.den ∣ 10 ^ k := by
      have hfind := List.find?_some htE2
      simpa using hfind
    by_cases hk0 : k = 0
    · rw [if_pos hk0] at hvd3
      have hvd2 : vd = intChars q.num := (Option.some.inj hvd3).symm
      subst hk0
      have hden1 : q.den = 1 := Nat.dvd_one.mp (by simpa using hdvd)
      have hq : ((q.num : ℚ)) = q := by
        rw [← Rat.num_div_den q, hden1]
        simp
      rw [hvd2, intChars_parse q.num c r2 hcd hcdot, hq]
    · rw [if_neg hk0] at hvd3
      have hvd2 : vd = decChars (q.num * ((10 ^ k / q.den : ℕ) : ℤ)) k :=
        (Option.some.inj hvd3).symm
      rw [hvd2, decChars_parse _ k (Nat.one_le_iff_ne_zero.mpr hk0) c r2 hcd,
        intCast_div_pow_eq q k hdvd]


theorem parseValueTok_quote (X : List Char) :
    parseValueTok (dQuote :: X) =
      (parseStrBody X).map (fun p => (Value.str ⟨p.1⟩, p.2)) := rfl

theorem parseValueTok_null (X : List Char) :
    parseValueTok ('n' :: 'u' :: 'l' :: 'l' :: X) = some (Value.null, X) := rfl

theorem parseValueTok_other (d : Char) (X : List Char) (h1 : ¬ d = dQuote)
    (h2 : ¬ d = 'n') :
    parseValueTok (d :: X) =
      (parseNumTok (d :: X)).map (fun p => (Value.num p.1, p.2)) := by
  show (if d = dQuote then (parseStrBody X).map (fun p => (Value.str ⟨p.1⟩, p.2))
    else if d = 'n' then
      (match X with
      | 'u' :: 'l' :: 'l' :: r2 => some (Value.null, r2)
      | _ => none)
    else (parseNumTok (d :: X)).map (fun p => (Value.num p.1, p.2))) =
    (parseNumTok (d :: X)).map (fun p => (Value.num p.1, p.2))
  rw [if_neg h1, if_neg h2]

set_option maxRecDepth 4000 in
theorem numDump_head (q : ℚ) (vd : List Char)
    (hvd : jsonDumpValue (.num q) = some vd) :
    ∃ d ds, vd = d :: ds ∧ (d = '-' ∨ d.isDigit = true) := by
  have hvdm : (match tenExp q with
      | none => none
      | some k => if k = 0 then some (intChars q.num)
        else some (decChars (q.num * ((10 ^ k : ℕ) / q.den : ℕ)) k)) =
      some vd := hvd
  cases htE : tenExp q with
  | none =>
    rw [htE] at hvdm
    exact absurd hvdm (by simp)
  | some k =>
    rw [htE] at hvdm
    have hvd3 : (if k = 0 then some (intChars q.num)
        else some (decChars (q.num * ((10 ^ k : ℕ) / q.den : ℕ)) k)) =
        some vd := hvdm
    by_cases hk0 : k = 0
    · rw [if_pos hk0] at hvd3
      have hvd2 : vd = intChars q.num := (Option.some.inj hvd3).symm
      unfold intChars at hvd2
      by_cases hneg : q.num < 0
      · rw [if_pos hneg] at hvd2
        exact ⟨'-', _, hvd2, Or.inl rfl⟩
      · rw [if_neg hneg] at hvd2
        obtain ⟨d, ds, hD, hDdig⟩ := natDigits_head q.num.natAbs
        exact ⟨d, ds, by rw [hvd2, hD], Or.inr hDdig⟩
    · rw [if_neg hk0] at hvd3
      have hvd2 : vd = decChars (q.num * ((10 ^ k / q.den : ℕ) : ℤ)) k :=
        (Option.some.inj hvd3).symm
      simp only [decChars] at hvd2
      by_cases hneg : (q.num * ((10 ^ k / q.den : ℕ) : ℤ)) < 0
      · rw [if_pos hneg, List.singleton_append] at hvd2
        exact ⟨'-', _, hvd2, Or.inl rfl⟩
      · rw [if_neg hneg, List.nil_append] at hvd2
        obtain ⟨d, ds, hD, hDdig⟩ :=
          natDigits_head ((q.num * ((10 ^ k / q.den : ℕ) : ℤ)).natAbs / 10 ^ k)
        rw [hD, List.cons_append] at hvd2
        exact ⟨d, _, hvd2, Or.inr hDdig⟩

theorem parseValueTok_dump (v : Value) (vd : List Char) (c : Char) (r2 : List Char)
    (hvd : jsonDumpValue v = some vd) (hc : c = ',' ∨ c = rBrace) :
    parseValueTok (vd ++ c :: r2) = some (v, c :: r2) := by
  have hcd : c.isDigit = false := by rcases hc with h | h <;> rw [h] <;> decide
  have hcdot : c ≠ '.' := by rcases hc with h | h <;> rw [h] <;> decide
  cases v with
  | natt => exact Option.noConfusion hvd
  | date t => exact Option.noConfusion hvd
  | null =>
    have h2 : some ("null".data) = some vd := hvd
    have hvd2 : vd = "null".data := (Option.some.inj h2).symm
    rw [hvd2]
    exact parseValueTok_null (c :: r2)
  | str s =>
    have h2 : some (dumpJString s) = some vd := hvd
    have hvd2 : vd = dumpJString s := (Option.some.inj h2).symm
    rw [hvd2]
    unfold dumpJString
    rw [List.cons_append, List.append_assoc, List.singleton_append,
      parseValueTok_quote, parseStrBody_dump s.data (c :: r2), Option.map_some']
  | num q =>
    obtain ⟨d, ds, hvds, hd⟩ := numDump_head q vd hvd
    have h1 : ¬ d = dQuote := by
      rcases hd with h | h
      · rw [h]; decide
      · exact isDigit_ne d dQuote h (by decide)
    have h2 : ¬ d = 'n' := by
      rcases hd with h | h
      · rw [h]; decide
      · exact isDigit_ne d ('n') h (by decide)
    rw [hvds, List.cons_append, parseValueTok_other d _ h1 h2,
      ← List.cons_append, ← hvds, parseNumTok_dump q vd c r2 hvd hcd hcdot,
      Option.map_some']

theorem parsePairsAux_succ_quote (f : Nat) (X : List Char) :
    parsePairsAux (f + 1) (dQuote :: X) =
      pairsAfterStr (parsePairsAux f) (parseStrBody X) := rfl

theorem pairsAfterStr_some
    (recurse : List Char → Option (List (String × Value) × List Char))
    (s r2 : List Char) :
    pairsAfterStr recurse (some (s, ':' :: ' ' :: r2)) =
      pairsAfterValue recurse s (parseValueTok r2) := rfl

theorem pairsAfterValue_brace
    (recurse : List Char → Option (List (String × Value) × List Char))
    (s : List Char) (v : Value) (r4 : List Char) :
    pairsAfterValue recurse s (some (v, rBrace :: r4)) =
      some ([(⟨s⟩, v)], r4) := rfl

theorem pairsAfterValue_comma
    (recurse : List Char → Option (List (String × Value) × List Char))
    (s : List Char) (v : Value) (r5 : List Char) :
    pairsAfterValue recurse s (some (v, ',' :: ' ' :: r5)) =
      (recurse r5).map (fun p => ((⟨s⟩, v) :: p.1, p.2)) := rfl

theorem jsonDumpPairsAux_cons (cname : String) (v : Value)
    (rest : List (String × Value)) (body : List Char)
    (h : jsonDumpPairsAux ((cname, v) :: rest) = some body) :
    ∃ vd rd, jsonDumpValue v = some vd ∧ jsonDumpPairsAux rest = some rd ∧
      body = dumpJString cname ++ ':' :: ' ' :: vd ++
        (if rest.isEmpty then [] else ',' :: ' ' :: rd) := by
  have hm : (match jsonDumpValue v with
      | none => none
      | some vd =>
        match jsonDumpPairsAux rest with
        | none => none
        | some rd =>
          some (dumpJString cname ++ ':' :: ' ' :: vd ++
            (if rest.isEmpty then [] else ',' :: ' ' :: rd))) = some body := h
  cases hvd : jsonDumpValue v with
  | none =>
    rw [hvd] at hm
    exact absurd hm (by simp)
  | some vd =>
    rw [hvd] at hm
    have hm2 : (match jsonDumpPairsAux rest with
        | none => none
        | some rd =>
          some (dumpJString cname ++ ':' :: ' ' :: vd ++
            (if rest.isEmpty then [] else ',' :: ' ' :: rd))) = some body := hm
    cases hrd : jsonDumpPairsAux rest with
    | none =>
      rw [hrd] at hm2
      exact absurd hm2 (by simp)
    | some rd =>
      rw [hrd] at hm2
      exact ⟨vd, rd, rfl, rfl, (Option.some.inj hm2).symm⟩

theorem jsonDumpPairsAux_le : ∀ (m : List (String × Value)) (body : List Char),
    jsonDumpPairsAux m = some body → m.length ≤ body.length := by
  intro m
  induction m with
  | nil =>
    intro body h
    simp
  | cons p rest ih =>
    obtain ⟨cname, v⟩ := p
    intro body h
    obtain ⟨vd, rd, hvd, hrd, hbody⟩ := jsonDumpPairsAux_cons cname v rest body h
    subst hbody
    have ihl := ih rd hrd
    by_cases hre : rest.isEmpty = true
    · have h0 : rest.length = 0 := by
        cases rest with
        | nil => rfl
        | cons a b => simp at hre
      rw [if_pos hre]
      simp only [List.length_cons, List.length_append, List.length_nil, h0]
      omega
    · rw [if_neg hre]
      simp only [List.length_cons, List.length_append]
      omega

theorem parsePairsAux_dump :
    ∀ (m : List (String × Value)) (f : Nat) (body : List Char),
      jsonDumpPairsAux m = some body → m ≠ [] → m.length ≤ f + 1 →
      parsePairsAux (f + 1) (body ++ [rBrace]) = some (m, []) := by
  intro m
  induction m with
  | nil =>
    intro f body h hne hlen
    exact absurd rfl hne
  | cons p rest ih =>
    obtain ⟨cname, v⟩ := p
    intro f body h hne hlen
    obtain ⟨vd, rd, hvd, hrd, hbody⟩ := jsonDumpPairsAux_cons cname v rest body h
    subst hbody
    unfold dumpJString
    by_cases hre : rest.isEmpty = true
    · have hrest0 : rest = [] := by
        cases rest with
        | nil => rfl
        | cons a b => simp at hre
      subst hrest0
      rw [if_pos hre]
      simp only [List.append_nil, List.cons_append, List.append_assoc,
        List.singleton_append, List.nil_append]
      rw [parsePairsAux_succ_quote, parseStrBody_dump cname.data _,
        pairsAfterStr_some,
        parseValueTok_dump v vd rBrace [] hvd (Or.inr rfl),
        pairsAfterValue_brace]
    · have hrne : rest ≠ [] := by
        intro h0
        rw [h0] at hre
        exact hre rfl
      rw [if_neg hre]
      cases f with
      | zero =>
        rw [List.length_cons] at hlen
        have h0 : rest.length = 0 := by omega
        exact absurd (List.length_eq_zero.mp h0) hrne
      | succ f2 =>
        simp only [List.cons_append, List.append_assoc, List.singleton_append,
          List.nil_append]
        rw [parsePairsAux_succ_quote, parseStrBody_dump cname.data _,
          pairsAfterStr_some,
          parseValueTok_dump v vd (',') (' ' :: (rd ++ [rBrace])) hvd (Or.inl rfl),
          pairsAfterValue_comma,
          ih f2 rd hrd hrne (by rw [List.length_cons] at hlen; omega),
          Option.map_some']

theorem jsonParseRecord_cons (d : Char) (r2 : List Char) (hd : ¬ d = rBrace) :
    jsonParseRecord ⟨lBrace :: d :: r2⟩ =
      (match parsePairsAux ((d :: r2).length + 1) (d :: r2) with
      | some (m, []) => some m
      | _ => none) := by
  show (if d = rBrace then (if r2.isEmpty then some [] else none)
    else match parsePairsAux ((d :: r2).length + 1) (d :: r2) with
      | some (m, []) => some m
      | _ => none) =
    (match parsePairsAux ((d :: r2).length + 1) (d :: r2) with
    | some (m, []) => some m
    | _ => none)
  rw [if_neg hd]

/-- Claim C7: serializing a record's field/value mapping to the payload
string (json.dumps of the row dict, then escaping embedded single quotes)
and parsing that payload back (undoing the single-quote escaping and
deserializing) yields the original field/value mapping. -/
theorem c7_payload_round_trip (cols : List String) (row : List Value) (s : String)
    (h : rowPayload cols row = some s) :
    jsonParseRecord (unescQstr s) = some (cols.zip row) := by
  unfold rowPayload at h
  cases hjd : jsonDumpPairs (cols.zip row) with
  | none =>
    rw [hjd] at h
    exact absurd h (by simp)
  | some cs =>
    rw [hjd, Option.map_some'] at h
    have hs : s = ⟨escQ cs⟩ := (Option.some.inj h).symm
    subst hs
    have hu : unescQstr ⟨escQ cs⟩ = ⟨cs⟩ := by
      show (⟨unescQ (escQ cs)⟩ : String) = ⟨cs⟩
      rw [unescQ_escQ]
    rw [hu]
    have hm : (match jsonDumpPairsAux (cols.zip row) with
        | none => none
        | some body => some (lBrace :: (body ++ [rBrace]))) = some cs := hjd
    cases hbd : jsonDumpPairsAux (cols.zip row) with
    | none =>
      rw [hbd] at hm
      exact absurd hm (by simp)
    | some body =>
      rw [hbd] at hm
      have hcs : cs = lBrace :: (body ++ [rBrace]) := (Option.some.inj hm).symm
      subst hcs
      by_cases hmp : (cols.zip row).isEmpty = true
      · have hm0 : cols.zip row = [] := by
          cases hz : cols.zip row with
          | nil => rfl
          | cons a b =>
            rw [hz] at hmp
            simp at hmp
        rw [hm0] at hbd
        have h2 : some ([] : List Char) = some body := hbd
        have hbody0 : body = [] := (Option.some.inj h2).symm
        subst hbody0
        rw [hm0]
        rfl
      · have hmne : cols.zip row ≠ [] := by
          intro h0
          rw [h0] at hmp
          exact hmp rfl
        have hbhead : ∃ bt, body = dQuote :: bt := by
          cases hz : cols.zip row with
          | nil => exact absurd hz hmne
          | cons p rest =>
            obtain ⟨cname, v⟩ := p
            rw [hz] at hbd
            obtain ⟨vd, rd, hvd, hrd, hbody⟩ :=
              jsonDumpPairsAux_cons cname v rest body hbd
            refine ⟨escJ cname.data ++ [dQuote] ++ ':' :: ' ' :: vd ++
              (if rest.isEmpty then [] else ',' :: ' ' :: rd), ?_⟩
            rw [hbody]
            unfold dumpJString
            rw [List.cons_append, List.cons_append]
        obtain ⟨bt, hbt⟩ := hbhead
        rw [hbt, List.cons_append,
          jsonParseRecord_cons dQuote (bt ++ [rBrace]) (by decide)]
        have hfuel : (dQuote :: (bt ++ [rBrace])).length + 1 =
            body.length + 1 + 1 := by
          rw [hbt]
          simp [List.length_cons, List.length_append]
        rw [hfuel]
        have hlenb := jsonDumpPairsAux_le (cols.zip row) body hbd
        have hdump := parsePairsAux_dump (cols.zip row) (body.length + 1) body
          hbd hmne (by omega)
        rw [← List.cons_append, ← hbt, hdump]



set_option maxRecDepth 100000 in
theorem c7_payload_round_trip_witness :
    rowPayload c7Cols c7Row = some c7Payload ∧
      jsonParseRecord (unescQstr c7Payload) = some (c7Cols.zip c7Row) :=
  ⟨by decide, c7_payload_round_trip c7Cols c7Row c7Payload (by decide)⟩

end ETL
